import Mathlib

/-!
Verification of the rchat core against its specification.

The Rust sources under `src-tauri/src` are shallowly embedded:
* Rust `&str` / `String` values that undergo byte-level operations are
  modelled as lists of Unicode scalar values (`RStr`), together with an
  explicit UTF-8 encoder, so that byte lengths, byte slicing (which panics
  off a character boundary) and character operations are all faithful.
* `u8` / `u32` / `u64` arithmetic is modelled on `Nat` with explicit
  `% 2 ^ w` reductions where the Rust code can overflow.
* External crates (sha2, hex) are implemented concretely; other external
  cryptographic crates (argon2 via rvault_core, XChaCha20-Poly1305,
  x25519-dalek, ed25519-dalek, base64, serde_json, zlib) are modelled by
  their contracts: ideal AEAD, commutative Diffie-Hellman, unforgeable
  signatures, and injective codecs modelled as the identity.
* Fallible Rust code returns `Except`; a Rust panic is modelled by an
  outer `Option` being `none`.
-/

namespace RChat

/-! ## Byte strings and the UTF-8 model of Rust `str` -/

/-- A byte (`u8`); values are kept below 256 by construction. -/
abbrev Byte := Nat

/-- A byte string (`&[u8]` / `Vec<u8>`). -/
abbrev Bytes := List Nat

/-- A Rust `&str`, as its list of Unicode scalar values. -/
abbrev RStr := List Nat

/-- Number of bytes of the UTF-8 encoding of one scalar value. -/
def utf8Width (c : Nat) : Nat :=
  if c < 0x80 then 1 else if c < 0x800 then 2 else if c < 0x10000 then 3 else 4

/-- UTF-8 encoding of one Unicode scalar value. -/
def utf8EncodeChar (c : Nat) : Bytes :=
  if c < 0x80 then [c]
  else if c < 0x800 then [0xC0 + c / 0x40, 0x80 + c % 0x40]
  else if c < 0x10000 then
    [0xE0 + c / 0x1000, 0x80 + c / 0x40 % 0x40, 0x80 + c % 0x40]
  else
    [0xF0 + c / 0x40000, 0x80 + c / 0x1000 % 0x40, 0x80 + c / 0x40 % 0x40,
      0x80 + c % 0x40]

/-- UTF-8 encoding of a string: Rust `str::as_bytes`. -/
def utf8 (s : RStr) : Bytes := (s.map utf8EncodeChar).flatten

/-- Rust `str::len` (the byte length). -/
def strLen (s : RStr) : Nat := (utf8 s).length

/-- Split a string at a byte offset.  Returns `none` when the offset is not
a character boundary or exceeds the byte length: Rust string slicing panics
in exactly those cases. -/
def splitAtByte : RStr → Nat → Option (RStr × RStr)
  | s, 0 => some ([], s)
  | [], _ + 1 => none
  | c :: s, n + 1 =>
    if utf8Width c ≤ n + 1 then
      match splitAtByte s (n + 1 - utf8Width c) with
      | some (l, r) => some (c :: l, r)
      | none => none
    else none

/-- Rust `&s[a..b]` (byte-offset string slicing); `none` models the panic. -/
def byteSlice (s : RStr) (a b : Nat) : Option RStr :=
  match splitAtByte s a with
  | none => none
  | some (_, rest) =>
    match splitAtByte rest (b - a) with
    | none => none
    | some (mid, _) => some mid

/-- The Unicode white-space scalar values recognised by Rust
`char::is_whitespace`. -/
def isWs (c : Nat) : Bool :=
  c == 0x9 || c == 0xA || c == 0xB || c == 0xC || c == 0xD || c == 0x20 ||
  c == 0x85 || c == 0xA0 || c == 0x1680 ||
  (0x2000 ≤ c && c ≤ 0x200A) ||
  c == 0x2028 || c == 0x2029 || c == 0x202F || c == 0x205F || c == 0x3000

/-- Case mapping of one scalar value (the ASCII fragment of Rust
`char::to_lowercase`; scalars outside A–Z are left unchanged). -/
def charLower (c : Nat) : Nat := if 0x41 ≤ c ∧ c ≤ 0x5A then c + 0x20 else c

/-- Rust `str::to_lowercase`. -/
def strLower (s : RStr) : RStr := s.map charLower

/-- Rust `str::trim`: strip leading and trailing white space. -/
def strTrim (s : RStr) : RStr :=
  ((s.dropWhile isWs).reverse.dropWhile isWs).reverse

/-! ## SHA-256 (the `sha2` crate), over byte lists -/

/-- Right rotation of a 32-bit word. -/
def rotr32 (n x : Nat) : Nat := ((x >>> n) ||| (x <<< (32 - n))) % 2 ^ 32

/-- SHA-256 round constants (decimal). -/
def sha256K : List Nat :=
  [1116352408, 1899447441, 3049323471, 3921009573,
   961987163, 1508970993, 2453635748, 2870763221,
   3624381080, 310598401, 607225278, 1426881987,
   1925078388, 2162078206, 2614888103, 3248222580,
   3835390401, 4022224774, 264347078, 604807628,
   770255983, 1249150122, 1555081692, 1996064986,
   2554220882, 2821834349, 2952996808, 3210313671,
   3336571891, 3584528711, 113926993, 338241895,
   666307205, 773529912, 1294757372, 1396182291,
   1695183700, 1986661051, 2177026350, 2456956037,
   2730485921, 2820302411, 3259730800, 3345764771,
   3516065817, 3600352804, 4094571909, 275423344,
   430227734, 506948616, 659060556, 883997877,
   958139571, 1322822218, 1537002063, 1747873779,
   1955562222, 2024104815, 2227730452, 2361852424,
   2428436474, 2756734187, 3204031479, 3329325298]

/-- The eight-word SHA-256 state. -/
structure Sha256State where
  a : Nat
  b : Nat
  c : Nat
  d : Nat
  e : Nat
  f : Nat
  g : Nat
  h : Nat

/-- Initial SHA-256 state (decimal). -/
def sha256Init : Sha256State :=
  ⟨1779033703, 3144134277, 1013904242, 2773480762,
   1359893119, 2600822924, 528734635, 1541459225⟩

/-- One SHA-256 compression round. -/
def sha256Round (s : Sha256State) (kt wt : Nat) : Sha256State :=
  let s1 := rotr32 6 s.e ^^^ rotr32 11 s.e ^^^ rotr32 25 s.e
  let ch := (s.e &&& s.f) ^^^ ((s.e ^^^ (2 ^ 32 - 1)) &&& s.g)
  let t1 := (s.h + s1 + ch + kt + wt) % 2 ^ 32
  let s0 := rotr32 2 s.a ^^^ rotr32 13 s.a ^^^ rotr32 22 s.a
  let mj := (s.a &&& s.b) ^^^ (s.a &&& s.c) ^^^ (s.b &&& s.c)
  let t2 := (s0 + mj) % 2 ^ 32
  ⟨(t1 + t2) % 2 ^ 32, s.a, s.b, s.c, (s.d + t1) % 2 ^ 32, s.e, s.f, s.g⟩

/-- Extend a message schedule by one word. -/
def sha256SchedStep (w : List Nat) : List Nat :=
  let g := fun k => w.getD (w.length - k) 0
  let x15 := g 15
  let x2 := g 2
  let s0 := rotr32 7 x15 ^^^ rotr32 18 x15 ^^^ (x15 >>> 3)
  let s1 := rotr32 17 x2 ^^^ rotr32 19 x2 ^^^ (x2 >>> 10)
  w ++ [(g 16 + s0 + g 7 + s1) % 2 ^ 32]

/-- First sixteen schedule words of a 64-byte block. -/
def sha256W16 (block : Bytes) : List Nat :=
  (List.range 16).map fun i =>
    block.getD (4 * i) 0 * 2 ^ 24 + block.getD (4 * i + 1) 0 * 2 ^ 16 +
      block.getD (4 * i + 2) 0 * 2 ^ 8 + block.getD (4 * i + 3) 0

/-- Compress one 64-byte block into the state. -/
def sha256Compress (s : Sha256State) (block : Bytes) : Sha256State :=
  let w := (List.range 48).foldl (fun w _ => sha256SchedStep w) (sha256W16 block)
  let t := (sha256K.zip w).foldl (fun st kw => sha256Round st kw.1 kw.2) s
  ⟨(s.a + t.a) % 2 ^ 32, (s.b + t.b) % 2 ^ 32, (s.c + t.c) % 2 ^ 32,
   (s.d + t.d) % 2 ^ 32, (s.e + t.e) % 2 ^ 32, (s.f + t.f) % 2 ^ 32,
   (s.g + t.g) % 2 ^ 32, (s.h + t.h) % 2 ^ 32⟩

/-- Big-endian 8-byte encoding of a 64-bit value. -/
def be64 (n : Nat) : Bytes :=
  [n / 2 ^ 56 % 256, n / 2 ^ 48 % 256, n / 2 ^ 40 % 256, n / 2 ^ 32 % 256,
   n / 2 ^ 24 % 256, n / 2 ^ 16 % 256, n / 2 ^ 8 % 256, n % 256]

/-- Big-endian 4-byte encoding of a 32-bit word. -/
def be32 (n : Nat) : Bytes :=
  [n / 2 ^ 24 % 256, n / 2 ^ 16 % 256, n / 2 ^ 8 % 256, n % 256]

/-- SHA-256 padding: a `0x80` byte, zeros to 56 mod 64, the bit length. -/
def sha256Pad (msg : Bytes) : Bytes :=
  let z := (64 + 55 - msg.length % 64) % 64
  msg ++ [0x80] ++ List.replicate z 0 ++ be64 ((8 * msg.length) % 2 ^ 64)

/-- Split a byte string into 64-byte blocks (structural recursion on a fuel
bound so the definition evaluates inside the kernel; `bs.length` steps always
suffice because every step consumes 64 > 0 bytes). -/
def toBlocksAux : Nat → Bytes → List Bytes
  | 0, _ => []
  | _ + 1, [] => []
  | n + 1, b :: rest => ((b :: rest).take 64) :: toBlocksAux n ((b :: rest).drop 64)

/-- Split a byte string into 64-byte blocks. -/
def toBlocks (bs : Bytes) : List Bytes := toBlocksAux bs.length bs

/-- SHA-256 of a byte string (32 output bytes). -/
def sha256 (msg : Bytes) : Bytes :=
  let s := (toBlocks (sha256Pad msg)).foldl sha256Compress sha256Init
  be32 s.a ++ be32 s.b ++ be32 s.c ++ be32 s.d ++ be32 s.e ++ be32 s.f ++
    be32 s.g ++ be32 s.h

/-- One hex digit (lower case), as in the `hex` crate. -/
def hexDigit (n : Nat) : Nat := if n < 10 then 48 + n else 87 + n

/-- `hex::encode` of a byte string, as a string of scalar values. -/
def hexEncode : Bytes → RStr
  | [] => []
  | b :: bs => hexDigit (b / 16) :: hexDigit (b % 16) :: hexEncode bs

/-! ## Interleaved harvester (`network/invite.rs`, `harvest_key`)

The outer `Option` is `none` exactly when the Rust function panics (string
slicing off a character boundary); `Except` carries the `anyhow` error. -/

/-- `harvest_key(password, inviter, invitee)` from `network/invite.rs`. -/
def harvest_key (password inviter invitee : RStr) :
    Option (Except String RStr) :=
  if strLen password ≠ 14 then
    some (.error "Password must be exactly 14 characters")
  else
    let raw_seed := strLower (strTrim inviter) ++ strLower (strTrim invitee)
    let pool := hexEncode (sha256 (utf8 raw_seed))
    let pwBytes := utf8 password
    let getHarvestChar := fun (chunk : Bytes) => pool.getD (chunk.sum % 64) 48
    let h1 := getHarvestChar ((pwBytes.drop 0).take 4)
    let h2 := getHarvestChar ((pwBytes.drop 4).take 3)
    let h3 := getHarvestChar ((pwBytes.drop 7).take 4)
    let h4 := getHarvestChar ((pwBytes.drop 11).take 3)
    match byteSlice password 0 4, byteSlice password 4 7,
        byteSlice password 7 11, byteSlice password 11 14 with
    | some p1, some p2, some p3, some p4 =>
      some (.ok (p1 ++ [h1] ++ p2 ++ [h2] ++ p3 ++ [h3] ++ p4 ++ [h4]))
    | _, _, _, _ => none

/-! ## Symbolic model of the external crypto crates

`rvault_core::crypto` (Argon2 KDF and XChaCha20-Poly1305 AEAD) is external
to this repository; it is modelled as an ideal cipher: a ciphertext records
the key and nonce it was sealed with and decryption succeeds exactly on
that key and nonce.  Base64 transport encoding is an injective codec and is
modelled as the identity. -/

/-- An AEAD ciphertext over plaintexts of type `α` (ideal-cipher model of
XChaCha20-Poly1305). -/
structure Ciphertext (α : Type) where
  ckey : Bytes
  cnonce : Nat
  cmsg : α
deriving DecidableEq

/-- `crypto::encrypt_with_key`; the fresh random nonce drawn inside the
Rust function is passed explicitly. Returns `(ciphertext, nonce)`. -/
def encrypt_with_key {α : Type} (key : Bytes) (pt : α) (nonce : Nat) :
    Ciphertext α × Nat :=
  (⟨key, nonce, pt⟩, nonce)

/-- `crypto::decrypt_with_key`: authentication fails unless both the key
and the nonce match the ones the ciphertext was sealed with. -/
def decrypt_with_key {α : Type} (key : Bytes) (ct : Ciphertext α)
    (nonce : Nat) : Except String α :=
  if ct.ckey = key ∧ ct.cnonce = nonce then .ok ct.cmsg
  else .error "Authentication failed"

/-- `crypto::derive_key` (Argon2), modelled as an injective pairing of the
password bytes and the salt. -/
def derive_key (pw salt : Bytes) : Bytes := pw.length :: pw ++ salt

/-! ## Invite codec (`network/invite.rs`) -/

/-- `InvitePayload` from `network/invite.rs`. -/
structure InvitePayload where
  target_username : RStr
  ip_address : RStr
  ttl_timestamp : Nat
deriving DecidableEq

/-- A plaintext as seen through `serde_json`: either the canonical JSON of
an `InvitePayload` (modelled by injective tagging) or other bytes, on which
`serde_json::from_str::<InvitePayload>` fails. -/
inductive PlainData
  | json (p : InvitePayload)
  | raw (b : Bytes)
deriving DecidableEq

/-- `EncryptedInvite` from `network/invite.rs` (base64 fields carried
directly). -/
structure EncryptedInvite where
  salt : Bytes
  nonce : Nat
  ciphertext : Ciphertext PlainData
deriving DecidableEq

/-- `encrypt_invite`; the random 16-byte salt and the AEAD nonce are passed
explicitly. -/
def encrypt_invite (payload : InvitePayload) (harvested_key : RStr)
    (salt : Bytes) (nonce : Nat) : EncryptedInvite :=
  let key := derive_key (utf8 harvested_key) salt
  let cn := encrypt_with_key key (PlainData.json payload) nonce
  ⟨salt, cn.2, cn.1⟩

/-- `decrypt_invite`: `Ok None` on authentication failure (wrong key),
`Err` on a malformed salt or unparseable plaintext. -/
def decrypt_invite (invite : EncryptedInvite) (harvested_key : RStr) :
    Except String (Option InvitePayload) :=
  if invite.salt.length = 16 then
    let key := derive_key (utf8 harvested_key) invite.salt
    match decrypt_with_key key invite.ciphertext invite.nonce with
    | .ok (.json p) => .ok (some p)
    | .ok (.raw _) => .error "invalid payload json"
    | .error _ => .ok none
  else .error "Salt must be 16 bytes"

/-- `generate_invite`; `now` is the clock reading and `salt`, `nonce` the
randomness drawn inside the Rust function. -/
def generate_invite (password inviter invitee ip_address : RStr)
    (ttl_secs now : Nat) (salt : Bytes) (nonce : Nat) :
    Option (Except String EncryptedInvite) :=
  match harvest_key password inviter invitee with
  | none => none
  | some (.error e) => some (.error e)
  | some (.ok hk) =>
    let payload : InvitePayload :=
      ⟨strLower (strTrim invitee), ip_address, now + ttl_secs⟩
    some (.ok (encrypt_invite payload hk salt nonce))

/-- The scanning loop of `process_invites`, carrying the enumeration
index. -/
def scanInvites (hk myNorm : RStr) (now : Nat) :
    List EncryptedInvite → Nat → Except String (Option (InvitePayload × Nat))
  | [], _ => .ok none
  | invite :: rest, index =>
    match decrypt_invite invite hk with
    | .error e => .error e
    | .ok (some payload) =>
      if payload.target_username = myNorm ∧ payload.ttl_timestamp > now then
        .ok (some (payload, index))
      else scanInvites hk myNorm now rest (index + 1)
    | .ok none => scanInvites hk myNorm now rest (index + 1)

/-- `process_invites` from `network/invite.rs`. -/
def process_invites (invites : List EncryptedInvite)
    (password inviter my_username : RStr) (now : Nat) :
    Option (Except String (Option (InvitePayload × Nat))) :=
  match harvest_key password inviter my_username with
  | none => none
  | some (.error e) => some (.error e)
  | some (.ok hk) =>
    some (scanInvites hk (strLower (strTrim my_username)) now invites 0)

/-- Modelled from the spec: an envelope is accepted iff its decryption
succeeds and the payload satisfies `target_username == normalize(my_name)`
and `ttl_timestamp > now`. -/
def specAccepts (hk myNorm : RStr) (now : Nat) (invite : EncryptedInvite) :
    Option InvitePayload :=
  match decrypt_invite invite hk with
  | .ok (some p) =>
    if p.target_username = myNorm ∧ p.ttl_timestamp > now then some p
    else none
  | _ => none

/-- Modelled from the spec: the first (lowest-index) accepted envelope. -/
def specFirstMatch (hk myNorm : RStr) (now : Nat) :
    List EncryptedInvite → Nat → Option (InvitePayload × Nat)
  | [], _ => none
  | invite :: rest, i =>
    match specAccepts hk myNorm now invite with
    | some p => some (p, i)
    | none => specFirstMatch hk myNorm now rest (i + 1)

/-! ## Hierarchical key tree (`network/hks.rs`)

The x25519-dalek and ed25519-dalek crates are external; they are modelled
symbolically: an X25519 public key is `2 ^ sk` and Diffie-Hellman raises
the peer's public key to one's own secret, which is commutative; an
Ed25519 signature is the signed message tagged with the signing key and
verification compares against the verifying key (which equals the signing
key in the model).  Base64, canonical JSON serialization and zlib are
injective codecs, modelled as the identity: a signature is therefore over
the blob value with its signature field cleared, and the exported blob is
the blob value itself. -/

def TREE_DEPTH : Nat := 12

def MAX_NODES : Nat := 2 ^ (TREE_DEPTH + 1) - 1

def LEAF_START_IDX : Nat := 2 ^ TREE_DEPTH - 1

def MAX_FRIENDS : Nat := 15000

/-- The X25519 public key of a secret (symbolic group exponentiation). -/
def x25519Pub (sk : Nat) : Nat := 2 ^ sk

/-- `StaticSecret::diffie_hellman`, as shared-secret bytes. -/
def diffie_hellman (sk pk : Nat) : Bytes := [pk ^ sk]

/-- `FriendEntry` from `network/hks.rs`. -/
structure FriendEntry where
  name : String
  x25519_pubkey : Nat
  encrypted_leaf_key : Ciphertext Bytes
  nonce : Nat
  leaf_index : Nat
deriving DecidableEq

/-- `HksTree`; the roster `HashMap` keyed by the friend's public key is an
association list whose most recent insertion shadows older ones. -/
structure HksTree where
  nodes : List Bytes
  roster : List (Nat × FriendEntry)
  next_friend_idx : Nat
deriving DecidableEq

/-- `HksTree::add_friend`; the AEAD nonce drawn inside is explicit. -/
def HksTree.add_friend (t : HksTree) (name : String) (friend_pubkey : Nat)
    (my_secret : Nat) (nonce : Nat) : Except String HksTree :=
  if t.next_friend_idx ≥ MAX_FRIENDS then .error "Friend limit reached (15000)"
  else
    let leaf_offset := t.next_friend_idx / 4
    let leaf_index := LEAF_START_IDX + leaf_offset
    if leaf_index ≥ t.nodes.length then .error "Tree capacity exceeded"
    else
      let leaf_key := t.nodes.getD leaf_index []
      let shared_secret := diffie_hellman my_secret friend_pubkey
      let cn := encrypt_with_key shared_secret leaf_key nonce
      let entry : FriendEntry := ⟨name, friend_pubkey, cn.1, cn.2, leaf_index⟩
      .ok { t with roster := (friend_pubkey, entry) :: t.roster,
                   next_friend_idx := t.next_friend_idx + 1 }

/-- The `PublishedBlob` with its `signature` field cleared (the value the
Ed25519 signature is computed over). -/
structure BlobCore where
  payload : Ciphertext Bytes
  payload_nonce : Nat
  tree_links : List (Nat × (Nat × Ciphertext Bytes))
  roster : List (Nat × FriendEntry)
  sender_x25519_pubkey : Nat
  invitations : List (EncryptedInvite × Nat)
deriving DecidableEq

/-- A `serde_json` rendering of a blob whose signature field is cleared:
the scalar fields together with the entries of the two `HashMap`s in the
iteration order of the particular map instance being serialized.  The std
`HashMap` iteration order is randomized per instance (`RandomState`), so
the exporter's rendering — the byte string that is signed — and the
importer's rendering of the equal, freshly re-parsed map values generally
list the entries in different orders and are then different byte
strings. -/
structure BlobSerialization where
  payload : Ciphertext Bytes
  payload_nonce : Nat
  tree_links_entries : List (Nat × (Nat × Ciphertext Bytes))
  roster_entries : List (Nat × FriendEntry)
  sender_x25519_pubkey : Nat
  invitations : List (EncryptedInvite × Nat)
deriving DecidableEq

/-- `serde_json::to_string` of the unsigned blob.  `linksEnum` and
`rosterEnum` are the iteration orders of the two `HashMap` instances being
serialized (re-orderings of the entry lists); nothing below depends on
them being more than arbitrary functions. -/
def serializeBlob (core : BlobCore)
    (linksEnum : List (Nat × (Nat × Ciphertext Bytes)) →
      List (Nat × (Nat × Ciphertext Bytes)))
    (rosterEnum : List (Nat × FriendEntry) → List (Nat × FriendEntry)) :
    BlobSerialization :=
  ⟨core.payload, core.payload_nonce, linksEnum core.tree_links,
    rosterEnum core.roster, core.sender_x25519_pubkey, core.invitations⟩

/-- An Ed25519 signature (symbolic) over a serialized byte string. -/
abbrev Ed25519Sig := Nat × BlobSerialization

/-- `SigningKey::sign` over the serialized unsigned blob. -/
def ed25519Sign (sk : Nat) (m : BlobSerialization) : Ed25519Sig := (sk, m)

/-- `VerifyingKey::verify` over the serialized unsigned blob. -/
def ed25519Verify (vk : Nat) (m : BlobSerialization) (sig : Ed25519Sig) :
    Bool :=
  decide (sig = (vk, m))

/-- `PublishedBlob`: the unsigned content plus the signature field;
`none` models a signature string that does not decode to a signature. -/
structure PublishedBlob where
  core : BlobCore
  signature : Option Ed25519Sig
deriving DecidableEq

/-- `HksTree::export`; `rng i` is the fresh AEAD nonce of the `i`-th
encryption (`rng 0` for the payload, `rng i` for the up-link of node `i`),
and `linksEnum`, `rosterEnum` are the iteration orders of the exporter's
two `HashMap` instances, which determine the serialized byte string the
Ed25519 signature is computed over. -/
def HksTree.exportBlob (t : HksTree) (payload_data : Bytes)
    (signing_key : Nat) (encryption_pubkey : Nat) (rng : Nat → Nat)
    (linksEnum : List (Nat × (Nat × Ciphertext Bytes)) →
      List (Nat × (Nat × Ciphertext Bytes)))
    (rosterEnum : List (Nat × FriendEntry) → List (Nat × FriendEntry)) :
    PublishedBlob :=
  let root_key := t.nodes.getD 0 []
  let pc := encrypt_with_key root_key payload_data (rng 0)
  let tree_links := (List.range' 1 (t.nodes.length - 1)).map fun i =>
    let parent_idx := (i - 1) / 2
    let cn := encrypt_with_key (t.nodes.getD i []) (t.nodes.getD parent_idx [])
      (rng i)
    (i, (cn.2, cn.1))
  let core : BlobCore :=
    ⟨pc.1, pc.2, tree_links, t.roster, encryption_pubkey, []⟩
  ⟨core,
    some (ed25519Sign signing_key (serializeBlob core linksEnum rosterEnum))⟩

/-- The leaf-to-root up-link walk of `HksTree::import`
(`(i + 1 - 1) / 2 = i / 2`). -/
def walkUp (links : List (Nat × (Nat × Ciphertext Bytes))) :
    Nat → Bytes → Except String Bytes
  | 0, current_key => .ok current_key
  | i + 1, current_key =>
    match links.lookup (i + 1) with
    | none => .error "Broken link"
    | some nc =>
      match decrypt_with_key current_key nc.2 nc.1 with
      | .error _ => .error "Decrypt link failed"
      | .ok parent_key => walkUp links (i / 2) parent_key
termination_by i _ => i
decreasing_by omega

/-- `HksTree::import`.  The signature is verified over
`serde_json::to_string` of the re-parsed blob with its signature field
cleared — a re-serialization of freshly built `HashMap`s, whose iteration
orders `linksEnum`, `rosterEnum` are independent of the exporter's. -/
def importBlob (blob : PublishedBlob) (my_pubkey my_secret : Nat)
    (friend_identity_pubkey : Nat)
    (linksEnum : List (Nat × (Nat × Ciphertext Bytes)) →
      List (Nat × (Nat × Ciphertext Bytes)))
    (rosterEnum : List (Nat × FriendEntry) → List (Nat × FriendEntry)) :
    Except String Bytes :=
  match blob.signature with
  | none => .error "Invalid signature"
  | some signature =>
    if ed25519Verify friend_identity_pubkey
        (serializeBlob blob.core linksEnum rosterEnum) signature then
      match blob.core.roster.lookup my_pubkey with
      | none => .error "Not in roster"
      | some entry =>
        let shared := diffie_hellman my_secret blob.core.sender_x25519_pubkey
        match decrypt_with_key shared entry.encrypted_leaf_key entry.nonce with
        | .error _ => .error "Decrypt leaf failed"
        | .ok current_key =>
          match walkUp blob.core.tree_links entry.leaf_index current_key with
          | .error e => .error e
          | .ok root_key =>
            match decrypt_with_key root_key blob.core.payload
                blob.core.payload_nonce with
            | .error _ => .error "Payload decrypt failed"
            | .ok payload => .ok payload
    else .error "Invalid signature"

/-! ## Message and peer rows (`storage/db.rs`)

The SQLite tables are lists of rows; the SQL statements of `db.rs` are
translated statement by statement. -/

/-- A row of the `messages` table (`status` column is `NOT NULL`). -/
structure MsgRow where
  id : String
  chat_id : String
  peer_id : String
  timestamp : Int
  content_type : String
  text_content : Option String
  file_hash : Option String
  status : String
  content_metadata : Option String
  sender_alias : Option String
deriving DecidableEq

/-- `update_message_status`:
`UPDATE messages SET status = ?1 WHERE id = ?2` (unconditional). -/
def update_message_status (db : List MsgRow) (msg_id status : String) :
    List MsgRow :=
  db.map fun r => if r.id = msg_id then { r with status := status } else r

/-- The `WHERE chat_id = ?1 AND peer_id = ?2 AND status != 'read'` filter
of `mark_messages_read`. -/
def markReadPred (chat_id sender_id : String) (r : MsgRow) : Bool :=
  r.chat_id == chat_id && r.peer_id == sender_id && r.status != "read"

/-- `mark_messages_read`: select the matching ids, then set their status
to `'read'`; returns the ids and the updated table. -/
def mark_messages_read (db : List MsgRow) (chat_id sender_id : String) :
    List String × List MsgRow :=
  let ids := (db.filter (markReadPred chat_id sender_id)).map (·.id)
  (ids,
    db.map fun r =>
      if markReadPred chat_id sender_id r then { r with status := "read" }
      else r)

/-- A row of the `peers` table (`aliasName` is the `alias` column;
`alias` is a reserved word in Lean). -/
structure PeerRow where
  id : String
  aliasName : String
  last_seen : Int
  public_key : Bytes
  method : String
deriving DecidableEq

/-- `add_peer`: `INSERT … ON CONFLICT(id) DO UPDATE SET last_seen = ?3,
alias = COALESCE(?2, alias)`.  The Rust binding substitutes `peer_id` for a
missing alias, so the `?2` parameter is never NULL and the COALESCE always
takes it. -/
def add_peer (db : List PeerRow) (peer_id : String)
    (aliasArg : Option String) (public_key : Option Bytes) (method : String)
    (now : Int) : List PeerRow :=
  let al := aliasArg.getD peer_id
  let pk := public_key.getD (List.replicate 32 0)
  if db.any (fun r => r.id == peer_id) then
    db.map fun r =>
      if r.id = peer_id then { r with last_seen := now, aliasName := al }
      else r
  else
    db ++ [⟨peer_id, al, now, pk, method⟩]

/-! ## Object store (`storage/object.rs`)

FastCDC is an external crate; the chunker is a parameter whose contract
(the chunks are the consecutive slices covering the input) is a hypothesis
of the round-trip theorem.  The `chunks/` directory is an association list
from chunk-hash to file contents. -/

/-- `sha256_hex` from `storage/object.rs`. -/
def sha256_hex (data : Bytes) : RStr := hexEncode (sha256 data)

/-- A row of the `files` table. -/
structure FileRow where
  file_hash : RStr
  file_name : Option RStr
  mime_type : Option RStr
  size_bytes : Nat
  is_complete : Bool
deriving DecidableEq

/-- A row of the `file_chunks` table. -/
structure ChunkRow where
  file_hash : RStr
  chunk_order : Nat
  chunk_hash : RStr
  chunk_size : Nat
deriving DecidableEq

/-- The database tables and the chunk directory together. -/
structure ObjectStore where
  files : List FileRow
  file_chunks : List ChunkRow
  disk : List (RStr × Bytes)
deriving DecidableEq

/-- The chunk loop of `create`: hash each chunk, write it to the chunk
directory unless a file of that name already exists (dedup), and record
`(file_hash, order, chunk_hash, size)` rows in loop order. -/
def writeChunks (disk : List (RStr × Bytes)) (fh : RStr) :
    List Bytes → Nat → List (RStr × Bytes) × List ChunkRow
  | [], _ => (disk, [])
  | c :: cs, order =>
    let h := sha256_hex c
    let disk' := if (disk.lookup h).isSome then disk else disk ++ [(h, c)]
    let rest := writeChunks disk' fh cs (order + 1)
    (rest.1, ⟨fh, order, h, c.length⟩ :: rest.2)

/-- `create` from `storage/object.rs`. -/
def create (st : ObjectStore) (chunker : Bytes → List Bytes) (data : Bytes)
    (file_name mime_type : Option RStr) : RStr × ObjectStore :=
  let file_hash := sha256_hex data
  if st.files.any (fun r => r.file_hash == file_hash) then (file_hash, st)
  else
    let wr := writeChunks st.disk file_hash (chunker data) 0
    (file_hash,
      ⟨st.files ++ [⟨file_hash, file_name, mime_type, data.length, true⟩],
        st.file_chunks ++ wr.2, wr.1⟩)

/-- Insert a chunk row into a list sorted by `chunk_order`. -/
def insertByOrder (r : ChunkRow) : List ChunkRow → List ChunkRow
  | [] => [r]
  | x :: xs =>
    if r.chunk_order ≤ x.chunk_order then r :: x :: xs
    else x :: insertByOrder r xs

/-- `ORDER BY chunk_order ASC` (insertion sort). -/
def sortByOrder : List ChunkRow → List ChunkRow
  | [] => []
  | x :: xs => insertByOrder x (sortByOrder xs)

/-- Read the named chunk files in order and concatenate them. -/
def readChunks (disk : List (RStr × Bytes)) : List RStr → Except String Bytes
  | [] => .ok []
  | h :: hs =>
    match disk.lookup h with
    | none => .error "Failed to read chunk"
    | some b =>
      match readChunks disk hs with
      | .ok rest => .ok (b ++ rest)
      | .error e => .error e

/-- `load` from `storage/object.rs`. -/
def load (st : ObjectStore) (file_hash : RStr) : Except String Bytes :=
  if st.files.any (fun r => r.file_hash == file_hash) then
    readChunks st.disk
      ((sortByOrder (st.file_chunks.filter
        (fun r => r.file_hash == file_hash))).map (·.chunk_hash))
  else .error "File not found"

/-! ## STUN response parsing (`network/stun.rs`, `query_stun_raw`)

Only the pure response-parsing tail of `query_stun_raw` (from the length
check on) is embedded; the socket I/O above it is not.  `buf` is the
received datagram (`len` bytes); reads past an index are guarded by the
same bounds checks as the source.  The outer `Option` is `none` when the
source indexes `data[1]` out of bounds (a panic, possible only when a
mapped-address attribute has `attr_len < 2`). -/

/-- An IP address as decoded by the client (v4 as a `u32`). -/
inductive IpAddr
  | v4 (ip : Nat)
  | v6 (bytes : Bytes)
deriving DecidableEq

/-- A socket address. -/
structure SockAddr where
  ip : IpAddr
  port : Nat
deriving DecidableEq

def STUN_MAGIC_COOKIE : Nat := 0x2112A442

def ATTR_XOR_MAPPED_ADDRESS : Nat := 0x0020

def ATTR_MAPPED_ADDRESS : Nat := 0x0001

/-- `u16::from_be_bytes([buf[i], buf[i+1]])`. -/
def be16At (buf : Bytes) (i : Nat) : Nat :=
  buf.getD i 0 * 256 + buf.getD (i + 1) 0

/-- `u32::from_be_bytes` of four consecutive bytes of `data`. -/
def be32At (buf : Bytes) (i : Nat) : Nat :=
  buf.getD i 0 * 2 ^ 24 + buf.getD (i + 1) 0 * 2 ^ 16 +
    buf.getD (i + 2) 0 * 2 ^ 8 + buf.getD (i + 3) 0

/-- The TLV attribute loop of `query_stun_raw`.  `fuel` only bounds the
iteration count: every iteration advances `offset` by at least 4 while the
loop guard keeps `offset + 4 ≤ 20 + msg_len`, so `msg_len + 1` iterations
always suffice and the fuel-exhaustion branch (which returns the same
result as normal loop exit) is unreachable from `parseStun`. -/
def parseAttrs (buf : Bytes) (len msg_len : Nat) :
    Nat → Nat → Option (Except String SockAddr)
  | 0, _ => some (.error "No mapped address found")
  | fuel + 1, offset =>
    if offset + 4 ≤ 20 + msg_len ∧ offset + 4 ≤ len then
      let attr_type := be16At buf offset
      let attr_len := be16At buf (offset + 2)
      if offset + 4 + attr_len > len then
        some (.error "No mapped address found")
      else
        let data := (buf.drop (offset + 4)).take attr_len
        let next := offset + 4 + (attr_len + 3) / 4 * 4
        if attr_type = ATTR_XOR_MAPPED_ADDRESS then
          if attr_len < 2 then none
          else
            let family := data.getD 1 0
            if family = 1 ∧ attr_len ≥ 8 then
              some (.ok ⟨.v4 ((be32At data 4) ^^^ STUN_MAGIC_COOKIE),
                (be16At data 2) ^^^ (STUN_MAGIC_COOKIE >>> 16)⟩)
            else if family = 2 ∧ attr_len ≥ 20 then
              let xor_bytes := (buf.drop 4).take 16
              some (.ok ⟨.v6 ((List.range 16).map fun i =>
                  (data.getD (4 + i) 0) ^^^ (xor_bytes.getD i 0)),
                (be16At data 2) ^^^ (STUN_MAGIC_COOKIE >>> 16)⟩)
            else parseAttrs buf len msg_len fuel next
        else if attr_type = ATTR_MAPPED_ADDRESS then
          if attr_len < 2 then none
          else
            let family := data.getD 1 0
            if family = 1 ∧ attr_len ≥ 8 then
              some (.ok ⟨.v4 (be32At data 4), be16At data 2⟩)
            else if family = 2 ∧ attr_len ≥ 20 then
              some (.ok ⟨.v6 ((data.drop 4).take 16), be16At data 2⟩)
            else parseAttrs buf len msg_len fuel next
        else parseAttrs buf len msg_len fuel next
    else some (.error "No mapped address found")

/-- The response-parsing tail of `query_stun_raw`. -/
def parseStun (buf : Bytes) : Option (Except String SockAddr) :=
  let len := buf.length
  if len < 20 then some (.error "Response too short")
  else if be16At buf 0 ≠ 0x0101 then some (.error "Bad message type")
  else parseAttrs buf len (be16At buf 2) (be16At buf 2 + 1) 20

/-! ## Helper lemmas -/

theorem forall2_map_self {α : Type} (f : α → α) (R : α → α → Prop)
    (l : List α) (h : ∀ a ∈ l, R a (f a)) : List.Forall₂ R l (l.map f) := by
  induction l with
  | nil => simp
  | cons x xs ih =>
    simp only [List.map_cons]
    exact List.Forall₂.cons (h x (by simp)) (ih fun a ha => h a (by simp [ha]))

theorem utf8EncodeChar_length (c : Nat) :
    (utf8EncodeChar c).length = utf8Width c := by
  unfold utf8EncodeChar utf8Width
  split_ifs <;> rfl

theorem utf8Width_pos (c : Nat) : 1 ≤ utf8Width c := by
  unfold utf8Width
  split_ifs <;> omega

theorem utf8_nil : utf8 [] = [] := rfl

theorem utf8_cons (c : Nat) (s : RStr) :
    utf8 (c :: s) = utf8EncodeChar c ++ utf8 s := by
  simp [utf8]

theorem utf8_append (a b : RStr) : utf8 (a ++ b) = utf8 a ++ utf8 b := by
  simp [utf8]

theorem strLen_cons (c : Nat) (s : RStr) :
    strLen (c :: s) = utf8Width c + strLen s := by
  simp [strLen, utf8_cons, utf8EncodeChar_length]

theorem strLen_append (a b : RStr) : strLen (a ++ b) = strLen a + strLen b := by
  simp [strLen, utf8_append]

theorem utf8EncodeChar_ascii (c : Nat) (h : c < 128) :
    utf8EncodeChar c = [c] := by
  simp [utf8EncodeChar, h]

theorem strLen_ascii (s : RStr) (h : ∀ c ∈ s, c < 128) :
    strLen s = s.length := by
  induction s with
  | nil => rfl
  | cons c t ih =>
    have hc : c < 128 := h c (by simp)
    rw [strLen_cons, ih fun d hd => h d (by simp [hd])]
    simp only [utf8Width, if_pos hc, List.length_cons]
    omega

theorem splitAtByte_zero (s : RStr) : splitAtByte s 0 = some ([], s) := by
  cases s <;> rfl

theorem splitAtByte_spec (s : RStr) :
    ∀ (n : Nat) (l r : RStr), splitAtByte s n = some (l, r) →
      s = l ++ r ∧ strLen l = n := by
  induction s with
  | nil =>
    intro n l r h
    cases n with
    | zero =>
      rw [splitAtByte_zero] at h
      cases h
      exact ⟨rfl, rfl⟩
    | succ m => exact absurd h (by simp [splitAtByte])
  | cons c t ih =>
    intro n l r h
    cases n with
    | zero =>
      rw [splitAtByte_zero] at h
      cases h
      exact ⟨rfl, rfl⟩
    | succ m =>
      rw [splitAtByte] at h
      by_cases hw : utf8Width c ≤ m + 1
      · rw [if_pos hw] at h
        cases hrec : splitAtByte t (m + 1 - utf8Width c) with
        | none => rw [hrec] at h; cases h
        | some p =>
          rw [hrec] at h
          cases h
          obtain ⟨he, hl⟩ := ih (m + 1 - utf8Width c) p.1 p.2 hrec
          exact ⟨by rw [he]; rfl, by rw [strLen_cons, hl]; omega⟩
      · rw [if_neg hw] at h
        cases h

theorem splitAtByte_add (s : RStr) :
    ∀ (a b : Nat) (l r : RStr), splitAtByte s a = some (l, r) →
      splitAtByte s (a + b) =
        (splitAtByte r b).map fun mt => (l ++ mt.1, mt.2) := by
  induction s with
  | nil =>
    intro a b l r h
    cases a with
    | zero =>
      rw [splitAtByte_zero] at h
      cases h
      simp only [Nat.zero_add]
      cases b with
      | zero => rw [splitAtByte_zero]; rfl
      | succ m => simp [splitAtByte]
    | succ m => exact absurd h (by simp [splitAtByte])
  | cons c t ih =>
    intro a b l r h
    cases a with
    | zero =>
      rw [splitAtByte_zero] at h
      cases h
      simp only [Nat.zero_add]
      cases hb : splitAtByte (c :: t) b with
      | none => simp
      | some p => simp
    | succ m =>
      rw [splitAtByte] at h
      by_cases hw : utf8Width c ≤ m + 1
      · rw [if_pos hw] at h
        cases hrec : splitAtByte t (m + 1 - utf8Width c) with
        | none => rw [hrec] at h; cases h
        | some p =>
          rw [hrec] at h
          cases h
          have hstep : splitAtByte (c :: t) (m + 1 + b) =
              match splitAtByte t (m + 1 + b - utf8Width c) with
              | some q => some (c :: q.1, q.2)
              | none => none := by
            have hco : m + 1 + b = (m + b) + 1 := by omega
            rw [hco, splitAtByte]
            rw [if_pos (by omega)]
            have hco2 : m + b + 1 - utf8Width c = m + 1 + b - utf8Width c := by
              omega
            rw [hco2]
            cases splitAtByte t (m + 1 + b - utf8Width c) with
            | none => rfl
            | some q => obtain ⟨l2, r2⟩ := q; rfl
          rw [hstep]
          have harg : m + 1 + b - utf8Width c = (m + 1 - utf8Width c) + b := by
            omega
          rw [harg, ih (m + 1 - utf8Width c) b p.1 p.2 hrec]
          cases splitAtByte p.2 b with
          | none => rfl
          | some q => rfl
      · rw [if_neg hw] at h
        cases h

theorem splitAtByte_strLen (s : RStr) : splitAtByte s (strLen s) = some (s, []) := by
  induction s with
  | nil => rfl
  | cons c t ih =>
    have hw := utf8Width_pos c
    rw [strLen_cons]
    have h2 : utf8Width c + strLen t = (utf8Width c + strLen t - 1) + 1 := by
      omega
    rw [h2, splitAtByte]
    rw [if_pos (by omega)]
    have harg : utf8Width c + strLen t - 1 + 1 - utf8Width c = strLen t := by
      omega
    rw [harg, ih]

theorem splitAtByte_ascii (s : RStr) :
    ∀ n : Nat, (∀ c ∈ s, c < 128) → n ≤ s.length →
      (splitAtByte s n).isSome := by
  induction s with
  | nil =>
    intro n _ hn
    have hn0 : n = 0 := by simpa using hn
    subst hn0
    simp [splitAtByte_zero]
  | cons c t ih =>
    intro n hascii hn
    cases n with
    | zero => simp [splitAtByte_zero]
    | succ m =>
      have hc : c < 128 := hascii c (by simp)
      have hw : utf8Width c = 1 := by simp [utf8Width, hc]
      rw [splitAtByte, if_pos (by omega)]
      have := ih (m + 1 - utf8Width c)
        (fun d hd => hascii d (by simp [hd])) (by simp at hn; omega)
      obtain ⟨p, hp⟩ := Option.isSome_iff_exists.mp this
      rw [hp]
      rfl

theorem byteSlice_strLen (s : RStr) (a b : Nat) (m : RStr)
    (h : byteSlice s a b = some m) : strLen m = b - a := by
  unfold byteSlice at h
  cases h1 : splitAtByte s a with
  | none => rw [h1] at h; cases h
  | some p =>
    obtain ⟨l, r⟩ := p
    rw [h1] at h
    dsimp only at h
    cases h2 : splitAtByte r (b - a) with
    | none => rw [h2] at h; cases h
    | some q =>
      obtain ⟨mid, rest⟩ := q
      rw [h2] at h
      dsimp only at h
      cases h
      exact (splitAtByte_spec r (b - a) _ _ h2).2

theorem hexDigit_lt (n : Nat) (h : n < 16) : hexDigit n < 128 := by
  unfold hexDigit
  split_ifs <;> omega

theorem hexEncode_mem_lt (bs : Bytes) (hb : ∀ b ∈ bs, b < 256) :
    ∀ c ∈ hexEncode bs, c < 128 := by
  induction bs with
  | nil => simp [hexEncode]
  | cons b t ih =>
    intro c hc
    have hb0 : b < 256 := hb b (by simp)
    simp only [hexEncode, List.mem_cons] at hc
    rcases hc with rfl | rfl | hc
    · exact hexDigit_lt _ (by omega)
    · exact hexDigit_lt _ (by omega)
    · exact ih (fun d hd => hb d (by simp [hd])) c hc

theorem be32_mem_lt (n : Nat) : ∀ b ∈ be32 n, b < 256 := by
  intro b hb
  simp only [be32, List.mem_cons, List.not_mem_nil, or_false] at hb
  rcases hb with h | h | h | h <;> subst h <;> omega

theorem sha256_mem_lt (m : Bytes) : ∀ b ∈ sha256 m, b < 256 := by
  intro b hb
  simp only [sha256, List.append_assoc, List.mem_append] at hb
  rcases hb with h | h | h | h | h | h | h | h <;> exact be32_mem_lt _ b h

theorem pool_getD_lt (seed : Bytes) (idx d : Nat) (hd : d < 128) :
    (hexEncode (sha256 seed)).getD idx d < 128 := by
  rw [List.getD_eq_getElem?_getD]
  cases hx : (hexEncode (sha256 seed))[idx]? with
  | none => simpa using hd
  | some c =>
    have hmem := List.getElem?_mem hx
    simp only [hx, Option.getD_some]
    exact hexEncode_mem_lt _ (sha256_mem_lt seed) c hmem

theorem charLower_idem (c : Nat) : charLower (charLower c) = charLower c := by
  unfold charLower
  split_ifs <;> omega

theorem isWs_charLower (c : Nat) : isWs (charLower c) = isWs c := by
  unfold charLower
  split_ifs with h
  · have h1 : isWs (c + 0x20) = false := by
      simp only [isWs, Bool.or_eq_false_iff, Bool.and_eq_false_iff,
        beq_eq_false_iff_ne, ne_eq, decide_eq_false_iff_not]
      omega
    have h2 : isWs c = false := by
      simp only [isWs, Bool.or_eq_false_iff, Bool.and_eq_false_iff,
        beq_eq_false_iff_ne, ne_eq, decide_eq_false_iff_not]
      omega
    rw [h1, h2]
  · rfl

theorem strLower_idem (s : RStr) : strLower (strLower s) = strLower s := by
  simp only [strLower, List.map_map]
  exact List.map_congr_left fun c _ => charLower_idem c

theorem dropWhile_map_isWs (s : RStr) :
    (s.map charLower).dropWhile isWs = (s.dropWhile isWs).map charLower := by
  induction s with
  | nil => rfl
  | cons c t ih =>
    simp only [List.map_cons, List.dropWhile_cons, isWs_charLower]
    split_ifs with h
    · exact ih
    · rfl

theorem strTrim_eq_rdrop (s : RStr) :
    strTrim s = List.rdropWhile isWs (s.dropWhile isWs) := rfl

theorem strTrim_strLower (s : RStr) :
    strTrim (strLower s) = strLower (strTrim s) := by
  rw [strTrim_eq_rdrop, strTrim_eq_rdrop, strLower, dropWhile_map_isWs]
  simp only [List.rdropWhile]
  rw [← List.map_reverse, dropWhile_map_isWs, ← List.map_reverse]
  rfl

theorem dropWhile_of_left_trimmed (p : Nat → Bool) (y : RStr)
    (hy : y.dropWhile p = y) :
    (List.rdropWhile p y).dropWhile p = List.rdropWhile p y := by
  cases hz : List.rdropWhile p y with
  | nil => rfl
  | cons a zs =>
    obtain ⟨t, ht⟩ := List.rdropWhile_prefix p y
    rw [hz] at ht
    have hya : ∃ u, y = a :: u := ⟨zs ++ t, by rw [← ht]; simp⟩
    obtain ⟨u, hu⟩ := hya
    have hpa : p a = false := by
      cases hpb : p a
      · rfl
      · exfalso
        rw [hu, List.dropWhile_cons, if_pos hpb] at hy
        have hle : (List.dropWhile p u).length ≤ u.length :=
          List.IsSuffix.length_le (List.dropWhile_suffix p)
        rw [hy] at hle
        simp at hle
    rw [List.dropWhile_cons, if_neg (by simp [hpa])]

theorem strTrim_idem (s : RStr) : strTrim (strTrim s) = strTrim s := by
  rw [strTrim_eq_rdrop s, strTrim_eq_rdrop]
  rw [dropWhile_of_left_trimmed isWs (s.dropWhile isWs)
    (List.dropWhile_idempotent isWs s)]
  exact List.rdropWhile_idempotent isWs _

theorem strLen_singleton_of_lt (c : Nat) (h : c < 128) : strLen [c] = 1 := by
  simp [strLen, utf8, utf8EncodeChar_ascii c h]

/-! ## The claims -/

/-- C1: the spec requires `update_message_status` to be monotonic
(`delivered` after `read` is a no-op), and the doc comment on the function
documents the progression `pending -> delivered -> read`.  The SQL is an
unguarded `UPDATE messages SET status = ?1 WHERE id = ?2`, and the
delivered-response handler in `network/manager.rs` calls it without
checking the stored status, so applying the sequence `pending`,
`delivered`, `read`, `delivered` to a message leaves its status at
`delivered`, not `read`: this evaluates the embedded code at that failing
input. -/
theorem update_status_read_then_delivered_regresses :
    ((update_message_status
      (update_message_status
        (update_message_status
          (update_message_status
            [⟨"m1", "chatA", "peerB", 5, "text", some "hi", none, "pending",
              none, none⟩]
            "m1" "pending")
          "m1" "delivered")
        "m1" "read")
      "m1" "delivered").map (fun r => r.status)) = ["delivered"] := by
  rfl

/-- C7: `mark_messages_read(c, s)` returns exactly the ids of the messages
with `chat_id = c` and `peer_id = s` whose status before the call was not
`read`; afterwards every such message has status `read` with every other
column intact, and all other messages are unchanged. -/
theorem mark_messages_read_exact (db : List MsgRow) (c s : String) :
    (mark_messages_read db c s).1 =
      (db.filter fun r =>
        decide (r.chat_id = c ∧ r.peer_id = s ∧ r.status ≠ "read")).map
        (fun r => r.id) ∧
    List.Forall₂ (fun r r' =>
      (r.chat_id = c ∧ r.peer_id = s ∧ r.status ≠ "read" →
        r'.status = "read" ∧ r'.id = r.id ∧ r'.chat_id = r.chat_id ∧
        r'.peer_id = r.peer_id ∧ r'.timestamp = r.timestamp ∧
        r'.content_type = r.content_type ∧
        r'.text_content = r.text_content ∧ r'.file_hash = r.file_hash ∧
        r'.content_metadata = r.content_metadata ∧
        r'.sender_alias = r.sender_alias) ∧
      (¬ (r.chat_id = c ∧ r.peer_id = s ∧ r.status ≠ "read") → r' = r))
      db (mark_messages_read db c s).2 := by
  have hpred : ∀ r : MsgRow, markReadPred c s r =
      decide (r.chat_id = c ∧ r.peer_id = s ∧ r.status ≠ "read") := by
    intro r
    by_cases h1 : r.chat_id = c <;> by_cases h2 : r.peer_id = s <;>
      by_cases h3 : r.status = "read" <;>
      simp [markReadPred, h1, h2, h3, bne_iff_ne]
  constructor
  · simp only [mark_messages_read]
    congr 1
    exact List.filter_congr fun r _ => hpred r
  · refine forall2_map_self _ _ _ fun r _ => ?_
    constructor
    · intro hP
      have : markReadPred c s r = true := by rw [hpred]; exact decide_eq_true hP
      simp [this]
    · intro hP
      have : markReadPred c s r = false := by
        rw [hpred]; exact decide_eq_false hP
      simp [this]

/-- C9: when `add_peer` hits an existing `peer_id`, only that row's
`last_seen` and `alias` change (`alias` becomes the supplied alias, or the
`peer_id` string when none is supplied); `public_key` and `method` keep
their previous values and every other row of the table is unmodified. -/
theorem add_peer_upsert_frame (db : List PeerRow) (peer_id : String)
    (aliasArg : Option String) (pk : Option Bytes) (method : String)
    (now : Int) (hmem : ∃ r ∈ db, r.id = peer_id) :
    List.Forall₂ (fun r r' =>
      (r.id = peer_id →
        r'.aliasName = aliasArg.getD peer_id ∧ r'.last_seen = now ∧
        r'.id = r.id ∧ r'.public_key = r.public_key ∧
        r'.method = r.method) ∧
      (r.id ≠ peer_id → r' = r))
      db (add_peer db peer_id aliasArg pk method now) := by
  have hany : db.any (fun r => r.id == peer_id) = true := by
    obtain ⟨r, hr, heq⟩ := hmem
    exact List.any_eq_true.mpr ⟨r, hr, beq_iff_eq.mpr heq⟩
  simp only [add_peer, hany, if_true]
  refine forall2_map_self _ _ _ fun r _ => ?_
  constructor
  · intro h
    simp [h]
  · intro h
    simp [h]

/-- C5: for every password of (byte) length 14 and all names `A`, `B`,
`harvest_key(pw, A, B)` equals `harvest_key` applied to the case-folded and
trimmed names, and any harvested key it returns has length 18 (the Rust
`len()`, i.e. bytes, which is what the in-repo test asserts). -/
theorem harvest_key_normalization (pw A B : RStr) (hpw : strLen pw = 14) :
    harvest_key pw A B =
      harvest_key pw (strTrim (strLower A)) (strTrim (strLower B)) ∧
    ∀ k, harvest_key pw A B = some (Except.ok k) → strLen k = 18 := by
  have hseed : ∀ X : RStr,
      strLower (strTrim (strTrim (strLower X))) = strLower (strTrim X) := by
    intro X
    rw [strTrim_idem, strTrim_strLower, strLower_idem]
  constructor
  · simp only [harvest_key]
    rw [hseed A, hseed B]
  · intro k hk
    simp only [harvest_key, hpw, ne_eq, not_true_eq_false, if_false] at hk
    cases e1 : byteSlice pw 0 4 with
    | none => rw [e1] at hk; cases hk
    | some p1 =>
    cases e2 : byteSlice pw 4 7 with
    | none => rw [e1, e2] at hk; cases hk
    | some p2 =>
    cases e3 : byteSlice pw 7 11 with
    | none => rw [e1, e2, e3] at hk; cases hk
    | some p3 =>
    cases e4 : byteSlice pw 11 14 with
    | none => rw [e1, e2, e3, e4] at hk; cases hk
    | some p4 =>
    rw [e1, e2, e3, e4] at hk
    simp only [Option.some.injEq, Except.ok.injEq] at hk
    subst hk
    have hl1 := byteSlice_strLen pw 0 4 p1 e1
    have hl2 := byteSlice_strLen pw 4 7 p2 e2
    have hl3 := byteSlice_strLen pw 7 11 p3 e3
    have hl4 := byteSlice_strLen pw 11 14 p4 e4
    have hs : ∀ idx,
        strLen [(hexEncode (sha256 (utf8
          (strLower (strTrim A) ++ strLower (strTrim B))))).getD idx 48] =
          1 :=
      fun idx => strLen_singleton_of_lt _ (pool_getD_lt _ idx 48 (by omega))
    simp only [strLen_append, hs]
    omega

/-- C5 witness: instantiation at the spec's example password and names. -/
theorem harvest_key_normalization_witness :
    harvest_key [49, 50, 51, 52, 53, 54, 55, 56, 57, 48, 49, 50, 51, 52]
        [65, 108, 105, 99, 101] [66, 111, 98] =
      harvest_key [49, 50, 51, 52, 53, 54, 55, 56, 57, 48, 49, 50, 51, 52]
        (strTrim (strLower [65, 108, 105, 99, 101]))
        (strTrim (strLower [66, 111, 98])) ∧
    ∀ k, harvest_key [49, 50, 51, 52, 53, 54, 55, 56, 57, 48, 49, 50, 51, 52]
        [65, 108, 105, 99, 101] [66, 111, 98] = some (Except.ok k) →
      strLen k = 18 :=
  harvest_key_normalization
    [49, 50, 51, 52, 53, 54, 55, 56, 57, 48, 49, 50, 51, 52]
    [65, 108, 105, 99, 101] [66, 111, 98] (by decide)

/-- C10 counterexample: the password made of the bytes
`"aaa" ++ "é" ++ "aaaaaaaaa"` has byte length exactly 14, yet `harvest_key`
panics on it (`&password[0..4]` slices through the middle of the two-byte
character `é` at byte offset 4), refuting the claim that `harvest_key`
never panics on 14-byte passwords containing multi-byte UTF-8. -/
theorem harvest_key_panics_on_non_ascii :
    harvest_key [97, 97, 97, 233, 97, 97, 97, 97, 97, 97, 97, 97, 97]
      [97] [98] = none := by
  rfl

/-- C10 (amended): for every password of byte length 14 whose byte offsets
4, 7 and 11 fall on character boundaries — in particular every all-ASCII
14-byte password — `harvest_key` returns `Ok` with a harvested key and
does not panic. -/
theorem harvest_key_total_on_boundaries (pw A B : RStr) :
    (strLen pw = 14 →
      (splitAtByte pw 4).isSome → (splitAtByte pw 7).isSome →
      (splitAtByte pw 11).isSome →
      ∃ k, harvest_key pw A B = some (Except.ok k)) ∧
    ((∀ c ∈ pw, c < 128) → pw.length = 14 →
      ∃ k, harvest_key pw A B = some (Except.ok k)) := by
  have main : strLen pw = 14 →
      (splitAtByte pw 4).isSome → (splitAtByte pw 7).isSome →
      (splitAtByte pw 11).isSome →
      ∃ k, harvest_key pw A B = some (Except.ok k) := by
    intro h14 hb4 hb7 hb11
    obtain ⟨⟨l4, r4⟩, e4⟩ := Option.isSome_iff_exists.mp hb4
    obtain ⟨⟨l7, r7⟩, e7⟩ := Option.isSome_iff_exists.mp hb7
    obtain ⟨⟨l11, r11⟩, e11⟩ := Option.isSome_iff_exists.mp hb11
    have c47 := splitAtByte_add pw 4 3 l4 r4 e4
    rw [show (4 + 3 : Nat) = 7 from rfl, e7] at c47
    have c711 := splitAtByte_add pw 7 4 l7 r7 e7
    rw [show (7 + 4 : Nat) = 11 from rfl, e11] at c711
    have c1114 := splitAtByte_add pw 11 3 l11 r11 e11
    have e14 : splitAtByte pw 14 = some (pw, []) := by
      rw [← h14]; exact splitAtByte_strLen pw
    rw [show (11 + 3 : Nat) = 14 from rfl, e14] at c1114
    obtain ⟨⟨m2, t2⟩, f2⟩ : ∃ q, splitAtByte r4 3 = some q := by
      cases hq : splitAtByte r4 3 with
      | none => rw [hq] at c47; cases c47
      | some q => exact ⟨q, rfl⟩
    obtain ⟨⟨m3, t3⟩, f3⟩ : ∃ q, splitAtByte r7 4 = some q := by
      cases hq : splitAtByte r7 4 with
      | none => rw [hq] at c711; cases c711
      | some q => exact ⟨q, rfl⟩
    obtain ⟨⟨m4, t4⟩, f4⟩ : ∃ q, splitAtByte r11 3 = some q := by
      cases hq : splitAtByte r11 3 with
      | none => rw [hq] at c1114; cases c1114
      | some q => exact ⟨q, rfl⟩
    have b1 : byteSlice pw 0 4 = some l4 := by
      unfold byteSlice
      rw [splitAtByte_zero]
      show (match splitAtByte pw (4 - 0) with
        | none => none
        | some (mid, _) => some mid) = some l4
      rw [show (4 - 0 : Nat) = 4 from rfl, e4]
    have b2 : byteSlice pw 4 7 = some m2 := by
      unfold byteSlice
      rw [e4]
      show (match splitAtByte r4 (7 - 4) with
        | none => none
        | some (mid, _) => some mid) = some m2
      rw [show (7 - 4 : Nat) = 3 from rfl, f2]
    have b3 : byteSlice pw 7 11 = some m3 := by
      unfold byteSlice
      rw [e7]
      show (match splitAtByte r7 (11 - 7) with
        | none => none
        | some (mid, _) => some mid) = some m3
      rw [show (11 - 7 : Nat) = 4 from rfl, f3]
    have b4 : byteSlice pw 11 14 = some m4 := by
      unfold byteSlice
      rw [e11]
      show (match splitAtByte r11 (14 - 11) with
        | none => none
        | some (mid, _) => some mid) = some m4
      rw [show (14 - 11 : Nat) = 3 from rfl, f4]
    simp only [harvest_key, h14, ne_eq, not_true_eq_false, if_false, b1, b2,
      b3, b4]
    exact ⟨_, rfl⟩
  refine ⟨main, fun hascii hlen => ?_⟩
  have h14 : strLen pw = 14 := by rw [strLen_ascii pw hascii, hlen]
  exact main h14
    (splitAtByte_ascii pw 4 hascii (by omega))
    (splitAtByte_ascii pw 7 hascii (by omega))
    (splitAtByte_ascii pw 11 hascii (by omega))

/-- C10 (amended) witness: instantiation at an ASCII 14-byte password. -/
theorem harvest_key_total_on_boundaries_witness :
    ((strLen [49, 50, 51, 52, 53, 54, 55, 56, 57, 48, 49, 50, 51, 52] = 14 →
      (splitAtByte [49, 50, 51, 52, 53, 54, 55, 56, 57, 48, 49, 50, 51, 52]
        4).isSome →
      (splitAtByte [49, 50, 51, 52, 53, 54, 55, 56, 57, 48, 49, 50, 51, 52]
        7).isSome →
      (splitAtByte [49, 50, 51, 52, 53, 54, 55, 56, 57, 48, 49, 50, 51, 52]
        11).isSome →
      ∃ k, harvest_key [49, 50, 51, 52, 53, 54, 55, 56, 57, 48, 49, 50, 51,
        52] [120] [121] = some (Except.ok k)) ∧
    ((∀ c ∈ [49, 50, 51, 52, 53, 54, 55, 56, 57, 48, 49, 50, 51, 52],
        c < 128) →
      List.length [49, 50, 51, 52, 53, 54, 55, 56, 57, 48, 49, 50, 51, 52] =
        14 →
      ∃ k, harvest_key [49, 50, 51, 52, 53, 54, 55, 56, 57, 48, 49, 50, 51,
        52] [120] [121] = some (Except.ok k))) ∧
    ∃ k, harvest_key [49, 50, 51, 52, 53, 54, 55, 56, 57, 48, 49, 50, 51, 52]
      [120] [121] = some (Except.ok k) :=
  have h := harvest_key_total_on_boundaries
    [49, 50, 51, 52, 53, 54, 55, 56, 57, 48, 49, 50, 51, 52] [120] [121]
  ⟨h, h.2 (by decide) (by decide)⟩

theorem decrypt_encrypt_invite (p : InvitePayload) (hk : RStr)
    (salt : Bytes) (nonce : Nat) (hsalt : salt.length = 16) :
    decrypt_invite (encrypt_invite p hk salt nonce) hk =
      Except.ok (some p) := by
  simp [decrypt_invite, encrypt_invite, encrypt_with_key, decrypt_with_key,
    hsalt]

theorem scanInvites_eq_specFirstMatch (hk myNorm : RStr) (now : Nat)
    (invites : List EncryptedInvite)
    (hok : ∀ inv ∈ invites, ∃ r, decrypt_invite inv hk = Except.ok r) :
    ∀ i, scanInvites hk myNorm now invites i =
      Except.ok (specFirstMatch hk myNorm now invites i) := by
  induction invites with
  | nil => intro i; rfl
  | cons inv rest ih =>
    intro i
    obtain ⟨r, hr⟩ := hok inv (by simp)
    have ihr := ih fun e he => hok e (by simp [he])
    cases r with
    | none =>
      simp only [scanInvites, specFirstMatch, specAccepts, hr]
      exact ihr (i + 1)
    | some p =>
      simp only [scanInvites, specFirstMatch, specAccepts, hr]
      split_ifs with h
      · rfl
      · exact ihr (i + 1)

theorem scanInvites_all_auth_failed (hk myNorm : RStr) (now : Nat)
    (invites : List EncryptedInvite)
    (hfail : ∀ inv ∈ invites, decrypt_invite inv hk = Except.ok none) :
    ∀ i, scanInvites hk myNorm now invites i = Except.ok none := by
  induction invites with
  | nil => intro i; rfl
  | cons inv rest ih =>
    intro i
    have hr := hfail inv (by simp)
    simp only [scanInvites, hr]
    exact ih (fun e he => hfail e (by simp [he])) (i + 1)

/-- C3: for a 14-character password on which the harvester succeeds,
`process_invites([generate_invite(pw, I, V, ip, ttl)], pw, I, V)` evaluated
before the TTL expires returns the generated payload at index 0 with
`ip_address = ip`; and in general (whenever no envelope is malformed)
`process_invites` returns the first (lowest-index) envelope whose
decryption succeeds and whose payload has `target_username =
normalize(my_name)` and `ttl_timestamp > now`. -/
theorem invite_roundtrip_and_first_match :
    (∀ (pw I V ip : RStr) (ttl t0 now : Nat) (salt : Bytes) (nonce : Nat)
        (hk : RStr),
      harvest_key pw I V = some (Except.ok hk) →
      salt.length = 16 → now < t0 + ttl →
      generate_invite pw I V ip ttl t0 salt nonce =
        some (Except.ok (encrypt_invite ⟨strLower (strTrim V), ip, t0 + ttl⟩
          hk salt nonce)) ∧
      ∃ payload : InvitePayload, payload.ip_address = ip ∧
        process_invites
          [encrypt_invite ⟨strLower (strTrim V), ip, t0 + ttl⟩ hk salt nonce]
          pw I V now = some (Except.ok (some (payload, 0)))) ∧
    (∀ (invites : List EncryptedInvite) (pw I me : RStr) (now : Nat)
        (hk : RStr),
      harvest_key pw I me = some (Except.ok hk) →
      (∀ inv ∈ invites, ∃ r, decrypt_invite inv hk = Except.ok r) →
      process_invites invites pw I me now =
        some (Except.ok
          (specFirstMatch hk (strLower (strTrim me)) now invites 0))) := by
  constructor
  · intro pw I V ip ttl t0 now salt nonce hk hharv hsalt hnow
    constructor
    · simp only [generate_invite, hharv]
    · refine ⟨⟨strLower (strTrim V), ip, t0 + ttl⟩, rfl, ?_⟩
      simp only [process_invites, hharv, scanInvites,
        decrypt_encrypt_invite _ _ _ _ hsalt]
      rw [if_pos ⟨trivial, by omega⟩]
  · intro invites pw I me now hk hharv hok
    simp only [process_invites, hharv]
    rw [scanInvites_eq_specFirstMatch hk (strLower (strTrim me)) now invites
      hok 0]

/-- C3 witness: the round trip at the spec's example password, with both
conjuncts instantiated and all hypotheses discharged on concrete values. -/
theorem invite_roundtrip_and_first_match_witness :
    (generate_invite [49, 50, 51, 52, 53, 54, 55, 56, 57, 48, 49, 50, 51, 52]
        [97] [98] [105] 100 0 (List.replicate 16 0) 0 =
      some (Except.ok (encrypt_invite
        ⟨strLower (strTrim [98]), [105], 0 + 100⟩
        [49, 50, 51, 52, 52, 53, 54, 55, 55, 56, 57, 48, 49, 54, 50, 51, 52,
          54] (List.replicate 16 0) 0)) ∧
      ∃ payload : InvitePayload, payload.ip_address = [105] ∧
        process_invites
          [encrypt_invite ⟨strLower (strTrim [98]), [105], 0 + 100⟩
            [49, 50, 51, 52, 52, 53, 54, 55, 55, 56, 57, 48, 49, 54, 50, 51,
              52, 54] (List.replicate 16 0) 0]
          [49, 50, 51, 52, 53, 54, 55, 56, 57, 48, 49, 50, 51, 52] [97] [98]
          1 = some (Except.ok (some (payload, 0)))) ∧
    (process_invites []
        [49, 50, 51, 52, 53, 54, 55, 56, 57, 48, 49, 50, 51, 52] [97] [98]
        1 = some (Except.ok (specFirstMatch
          [49, 50, 51, 52, 52, 53, 54, 55, 55, 56, 57, 48, 49, 54, 50, 51,
            52, 54] (strLower (strTrim [98])) 1 [] 0))) :=
  ⟨invite_roundtrip_and_first_match.1
      [49, 50, 51, 52, 53, 54, 55, 56, 57, 48, 49, 50, 51, 52] [97] [98]
      [105] 100 0 1 (List.replicate 16 0) 0
      [49, 50, 51, 52, 52, 53, 54, 55, 55, 56, 57, 48, 49, 54, 50, 51, 52,
        54] (by rfl) (by decide) (by decide),
    invite_roundtrip_and_first_match.2 []
      [49, 50, 51, 52, 53, 54, 55, 56, 57, 48, 49, 50, 51, 52] [97] [98] 1
      [49, 50, 51, 52, 52, 53, 54, 55, 55, 56, 57, 48, 49, 54, 50, 51, 52,
        54] (by rfl) (by simp)⟩

/-- C6: during invite scanning with a valid password, an envelope whose
decryption fails authentication is skipped silently — the scan moves to
the next envelope (index advanced by one) — and when every envelope fails
authentication `process_invites` returns `Ok(None)`, never an error. -/
theorem invite_scan_silent_nonmatch :
    (∀ (hk myNorm : RStr) (now i : Nat) (inv : EncryptedInvite)
        (rest : List EncryptedInvite),
      decrypt_invite inv hk = Except.ok none →
      scanInvites hk myNorm now (inv :: rest) i =
        scanInvites hk myNorm now rest (i + 1)) ∧
    (∀ (invites : List EncryptedInvite) (pw I me : RStr) (now : Nat)
        (hk : RStr),
      harvest_key pw I me = some (Except.ok hk) →
      (∀ inv ∈ invites, decrypt_invite inv hk = Except.ok none) →
      process_invites invites pw I me now = some (Except.ok none)) := by
  constructor
  · intro hk myNorm now i inv rest h
    simp only [scanInvites, h]
  · intro invites pw I me now hk hharv hfail
    simp only [process_invites, hharv]
    rw [scanInvites_all_auth_failed hk (strLower (strTrim me)) now invites
      hfail 0]

/-- C6 witness: a wrong-key envelope is skipped and yields `Ok(None)`. -/
theorem invite_scan_silent_nonmatch_witness :
    (scanInvites [1] [2] 0 (⟨List.replicate 16 0, 0, ⟨[9, 9], 0,
        PlainData.raw []⟩⟩ :: []) 0 = scanInvites [1] [2] 0 [] (0 + 1)) ∧
    process_invites [⟨List.replicate 16 0, 0, ⟨[9, 9], 0,
        PlainData.raw []⟩⟩]
      [49, 50, 51, 52, 53, 54, 55, 56, 57, 48, 49, 50, 51, 52] [97] [98] 3 =
      some (Except.ok none) :=
  ⟨invite_scan_silent_nonmatch.1 [1] [2] 0 0
      ⟨List.replicate 16 0, 0, ⟨[9, 9], 0, PlainData.raw []⟩⟩ [] (by rfl),
    invite_scan_silent_nonmatch.2
      [⟨List.replicate 16 0, 0, ⟨[9, 9], 0, PlainData.raw []⟩⟩]
      [49, 50, 51, 52, 53, 54, 55, 56, 57, 48, 49, 50, 51, 52] [97] [98] 3
      [49, 50, 51, 52, 52, 53, 54, 55, 55, 56, 57, 48, 49, 54, 50, 51, 52,
        54] (by rfl)
      (by
        intro inv hinv
        rw [List.mem_singleton] at hinv
        subst hinv
        rfl)⟩

theorem lookup_eq_some_mem {α β : Type} [BEq α] [LawfulBEq α]
    (l : List (α × β)) (k : α) (b : β) (h : l.lookup k = some b) :
    (k, b) ∈ l := by
  induction l with
  | nil => cases h
  | cons e es ih =>
    obtain ⟨k', v⟩ := e
    rw [List.lookup_cons] at h
    cases hbeq : k == k' with
    | true =>
      rw [hbeq] at h
      cases h
      have hk : k = k' := beq_iff_eq.mp hbeq
      subst hk
      exact List.mem_cons_self _ _
    | false =>
      rw [hbeq] at h
      exact List.mem_cons_of_mem _ (ih h)

theorem lookup_append_left {α β : Type} [BEq α] (l l₂ : List (α × β))
    (k : α) (b : β) (h : l.lookup k = some b) :
    (l ++ l₂).lookup k = some b := by
  induction l with
  | nil => cases h
  | cons e es ih =>
    obtain ⟨k', v⟩ := e
    rw [List.lookup_cons] at h
    rw [List.cons_append, List.lookup_cons]
    cases hbeq : k == k' with
    | true => rw [hbeq] at h; exact h
    | false => rw [hbeq] at h; exact ih h

theorem lookup_append_right {α β : Type} [BEq α] (l l₂ : List (α × β))
    (k : α) (h : l.lookup k = none) :
    (l ++ l₂).lookup k = l₂.lookup k := by
  induction l with
  | nil => rfl
  | cons e es ih =>
    obtain ⟨k', v⟩ := e
    rw [List.lookup_cons] at h
    rw [List.cons_append, List.lookup_cons]
    cases hbeq : k == k' with
    | true => rw [hbeq] at h; cases h
    | false => rw [hbeq] at h; exact ih h

theorem writeChunks_spec (all : List Bytes) (fh : RStr)
    (hinj : ∀ c ∈ all, ∀ c' ∈ all, sha256_hex c = sha256_hex c' → c = c') :
    ∀ (chunks : List Bytes) (disk : List (RStr × Bytes)) (order : Nat),
      (∀ c ∈ chunks, c ∈ all) →
      (∀ hb ∈ disk, ∀ c ∈ all, hb.1 = sha256_hex c → hb.2 = c) →
      (∃ ext, (writeChunks disk fh chunks order).1 = disk ++ ext) ∧
      (∀ hb ∈ (writeChunks disk fh chunks order).1, ∀ c ∈ all,
        hb.1 = sha256_hex c → hb.2 = c) ∧
      (∀ c ∈ chunks,
        (writeChunks disk fh chunks order).1.lookup (sha256_hex c) =
          some c) ∧
      (∀ r ∈ (writeChunks disk fh chunks order).2, r.file_hash = fh) ∧
      (writeChunks disk fh chunks order).2.map (fun r => r.chunk_hash) =
        chunks.map sha256_hex ∧
      (writeChunks disk fh chunks order).2.map (fun r => r.chunk_order) =
        List.range' order chunks.length := by
  intro chunks
  induction chunks with
  | nil =>
    intro disk order _ hcons
    exact ⟨⟨[], by simp [writeChunks]⟩, by simpa [writeChunks] using hcons,
      by simp, by simp [writeChunks], by simp [writeChunks],
      by simp [writeChunks]⟩
  | cons c cs ih =>
    intro disk order hsub hcons
    have hc_all : c ∈ all := hsub c (by simp)
    -- the state of the chunk directory after this iteration
    have hdisk' : ∀ disk', disk' = (if (disk.lookup (sha256_hex c)).isSome
        then disk else disk ++ [(sha256_hex c, c)]) →
        (∃ e1, disk' = disk ++ e1) ∧
        (∀ hb ∈ disk', ∀ c'' ∈ all, hb.1 = sha256_hex c'' → hb.2 = c'') ∧
        disk'.lookup (sha256_hex c) = some c := by
      intro disk' hdef
      cases hcase : (disk.lookup (sha256_hex c)).isSome with
      | true =>
        rw [hcase, if_pos rfl] at hdef
        rw [hdef]
        obtain ⟨b, hb⟩ := Option.isSome_iff_exists.mp hcase
        have hmem := lookup_eq_some_mem disk (sha256_hex c) b hb
        have hbc : b = c := hcons (sha256_hex c, b) hmem c hc_all rfl
        subst hbc
        exact ⟨⟨[], by simp⟩, hcons, hb⟩
      | false =>
        rw [hcase] at hdef
        simp only [Bool.false_eq_true, if_false] at hdef
        rw [hdef]
        have hnone : disk.lookup (sha256_hex c) = none := by
          cases hx : disk.lookup (sha256_hex c) with
          | none => rfl
          | some b => rw [hx] at hcase; cases hcase
        refine ⟨⟨[(sha256_hex c, c)], rfl⟩, ?_, ?_⟩
        · intro hb hmem c'' hc'' heq
          rcases List.mem_append.mp hmem with hold | hnew
          · exact hcons hb hold c'' hc'' heq
          · rw [List.mem_singleton] at hnew
            subst hnew
            simp only at heq ⊢
            exact hinj c hc_all c'' hc'' heq
        · rw [lookup_append_right disk _ _ hnone]
          simp [List.lookup_cons]
    obtain ⟨⟨e1, he1⟩, hcons', hlook'⟩ := hdisk' _ rfl
    obtain ⟨⟨ext, hext⟩, hconsF, hlookF, hfhF, hhashF, hordF⟩ :=
      ih (if (disk.lookup (sha256_hex c)).isSome then disk
          else disk ++ [(sha256_hex c, c)]) (order + 1)
        (fun d hd => hsub d (by simp [hd])) hcons'
    refine ⟨⟨e1 ++ ext, ?_⟩, ?_, ?_, ?_, ?_, ?_⟩
    · show (writeChunks _ fh (c :: cs) order).1 = _
      simp only [writeChunks]
      rw [hext, he1, List.append_assoc]
    · show ∀ hb ∈ (writeChunks _ fh (c :: cs) order).1, _
      simp only [writeChunks]
      exact hconsF
    · intro d hd
      rcases List.mem_cons.mp hd with rfl | hdcs
      · show (writeChunks _ fh (d :: cs) order).1.lookup _ = _
        simp only [writeChunks]
        rw [hext]
        exact lookup_append_left _ _ _ _ hlook'
      · show (writeChunks _ fh (c :: cs) order).1.lookup _ = _
        simp only [writeChunks]
        exact hlookF d hdcs
    · intro r hr
      simp only [writeChunks, List.mem_cons] at hr
      rcases hr with rfl | hr
      · rfl
      · exact hfhF r hr
    · simp only [writeChunks, List.map_cons, hhashF]
    · simp only [writeChunks, List.map_cons, hordF, List.length_cons]
      rw [List.range'_succ]

theorem sortByOrder_of_range (recs : List ChunkRow) :
    ∀ order : Nat,
      recs.map (fun r => r.chunk_order) = List.range' order recs.length →
      sortByOrder recs = recs := by
  induction recs with
  | nil => intro order _; rfl
  | cons r rest ih =>
    intro order hmap
    simp only [List.map_cons, List.length_cons, List.range'_succ] at hmap
    obtain ⟨hr, hrest⟩ := List.cons.injEq _ _ _ _ ▸ hmap
    have hsort : sortByOrder rest = rest := ih (order + 1) hrest
    show insertByOrder r (sortByOrder rest) = r :: rest
    rw [hsort]
    cases rest with
    | nil => rfl
    | cons x xs =>
      simp only [List.map_cons, List.length_cons, List.range'_succ] at hrest
      have hx : x.chunk_order = order + 1 :=
        (List.cons.injEq _ _ _ _ ▸ hrest).1
      show insertByOrder r (x :: xs) = r :: x :: xs
      rw [insertByOrder, if_pos (by omega)]

theorem readChunks_map_sha (disk : List (RStr × Bytes)) (chunks : List Bytes)
    (h : ∀ c ∈ chunks, disk.lookup (sha256_hex c) = some c) :
    readChunks disk (chunks.map sha256_hex) = Except.ok chunks.flatten := by
  induction chunks with
  | nil => rfl
  | cons c cs ih =>
    simp only [List.map_cons, readChunks, h c (by simp)]
    rw [ih fun d hd => h d (by simp [hd])]
    simp [List.flatten_cons]

/-- C4: `load(create(data))` returns `data` byte-for-byte (the chunk rows
are read back in ascending `chunk_order` and their chunk files
concatenated), and a second `create` of the same bytes returns the same
`file_hash` with the store — chunk files, `files` and `file_chunks` rows —
completely unchanged.  The FastCDC chunker is external; its contract (the
chunks concatenate to the input) is the `hjoin` hypothesis, and the
`hdisk`/`hinj` hypotheses say SHA-256 has no collision among the chunks
involved, which the code relies on for deduplication. -/
theorem chunk_roundtrip_and_idempotent (st : ObjectStore)
    (chunker : Bytes → List Bytes) (data : Bytes)
    (name mime name2 mime2 : Option RStr)
    (hjoin : (chunker data).flatten = data)
    (hfresh : ∀ r ∈ st.files, r.file_hash ≠ sha256_hex data)
    (hnochunks : ∀ r ∈ st.file_chunks, r.file_hash ≠ sha256_hex data)
    (hdisk : ∀ hb ∈ st.disk, ∀ c ∈ chunker data,
      hb.1 = sha256_hex c → hb.2 = c)
    (hinj : ∀ c ∈ chunker data, ∀ c' ∈ chunker data,
      sha256_hex c = sha256_hex c' → c = c') :
    load (create st chunker data name mime).2
        (create st chunker data name mime).1 = Except.ok data ∧
    create (create st chunker data name mime).2 chunker data name2 mime2 =
      create st chunker data name mime := by
  have hany : st.files.any
      (fun r => r.file_hash == sha256_hex data) = false := by
    rw [List.any_eq_false]
    intro r hr
    simpa using hfresh r hr
  obtain ⟨hext, hconsF, hlookF, hfhF, hhashF, hordF⟩ :=
    writeChunks_spec (chunker data) (sha256_hex data) hinj (chunker data)
      st.disk 0 (fun c hc => hc) hdisk
  have hcreate : create st chunker data name mime =
      (sha256_hex data,
        ⟨st.files ++ [⟨sha256_hex data, name, mime, data.length, true⟩],
          st.file_chunks ++
            (writeChunks st.disk (sha256_hex data) (chunker data) 0).2,
          (writeChunks st.disk (sha256_hex data) (chunker data) 0).1⟩) := by
    simp only [create, hany]
    rfl
  constructor
  · rw [hcreate]
    have hany2 : (st.files ++
        [(⟨sha256_hex data, name, mime, data.length, true⟩ : FileRow)]).any
        (fun r => r.file_hash == sha256_hex data) = true := by
      have hrow : (⟨sha256_hex data, name, mime, data.length, true⟩ :
          FileRow) ∈ st.files ++
          [⟨sha256_hex data, name, mime, data.length, true⟩] := by simp
      rw [List.any_eq_true]
      refine ⟨_, hrow, ?_⟩
      simp
    simp only [load, hany2, if_pos]
    have hfilter : (st.file_chunks ++
        (writeChunks st.disk (sha256_hex data) (chunker data) 0).2).filter
        (fun r => r.file_hash == sha256_hex data) =
        (writeChunks st.disk (sha256_hex data) (chunker data) 0).2 := by
      rw [List.filter_append]
      have h1 : st.file_chunks.filter
          (fun r => r.file_hash == sha256_hex data) = [] := by
        rw [List.filter_eq_nil_iff]
        intro r hr
        simpa using hnochunks r hr
      have h2 : (writeChunks st.disk (sha256_hex data)
          (chunker data) 0).2.filter
          (fun r => r.file_hash == sha256_hex data) =
          (writeChunks st.disk (sha256_hex data) (chunker data) 0).2 := by
        rw [List.filter_eq_self]
        intro r hr
        simp [hfhF r hr]
      rw [h1, h2, List.nil_append]
    rw [hfilter]
    have hlen : (writeChunks st.disk (sha256_hex data)
        (chunker data) 0).2.length = (chunker data).length := by
      have := congrArg List.length hhashF
      simpa using this
    rw [sortByOrder_of_range _ 0 (by rw [hordF, hlen]), hhashF]
    rw [readChunks_map_sha _ _ hlookF, hjoin]
  · rw [hcreate]
    have hany2 : (st.files ++
        [(⟨sha256_hex data, name, mime, data.length, true⟩ : FileRow)]).any
        (fun r => r.file_hash == sha256_hex data) = true := by
      have hrow : (⟨sha256_hex data, name, mime, data.length, true⟩ :
          FileRow) ∈ st.files ++
          [⟨sha256_hex data, name, mime, data.length, true⟩] := by simp
      rw [List.any_eq_true]
      refine ⟨_, hrow, ?_⟩
      simp
    simp only [create, hany2, if_pos]

/-- C4 witness: a fresh empty store, three bytes of data, and a chunker
satisfying the FastCDC coverage contract. -/
theorem chunk_roundtrip_and_idempotent_witness :
    load (create ⟨[], [], []⟩ (fun d => [d]) [1, 2, 3] none none).2
        (create ⟨[], [], []⟩ (fun d => [d]) [1, 2, 3] none none).1 =
      Except.ok [1, 2, 3] ∧
    create (create ⟨[], [], []⟩ (fun d => [d]) [1, 2, 3] none none).2
        (fun d => [d]) [1, 2, 3] none none =
      create ⟨[], [], []⟩ (fun d => [d]) [1, 2, 3] none none :=
  chunk_roundtrip_and_idempotent ⟨[], [], []⟩ (fun d => [d]) [1, 2, 3]
    none none none none (by simp) (by simp) (by simp) (by simp)
    (by
      intro c hc c' hc' _
      rw [List.mem_singleton] at hc hc'
      rw [hc, hc'])

theorem dh_comm (a b : Nat) :
    diffie_hellman a (x25519Pub b) = diffie_hellman b (x25519Pub a) := by
  simp only [diffie_hellman, x25519Pub, ← pow_mul]
  rw [Nat.mul_comm]

theorem range_map_lookup (g : Nat → Nat × Ciphertext Bytes) :
    ∀ (cnt s j : Nat), s ≤ j → j < s + cnt →
      ((List.range' s cnt).map fun i => (i, g i)).lookup j = some (g j) := by
  intro cnt
  induction cnt with
  | zero => intro s j h1 h2; omega
  | succ n ih =>
    intro s j h1 h2
    rw [List.range'_succ, List.map_cons, List.lookup_cons]
    cases hbeq : j == s with
    | true =>
      have : j = s := beq_iff_eq.mp hbeq
      subst this
      rfl
    | false =>
      have hne : j ≠ s := by
        intro hcon
        subst hcon
        simp at hbeq
      exact ih (s + 1) j (by omega) (by omega)

theorem walkUp_to_root (nodes : List Bytes) (rng : Nat → Nat) :
    ∀ i, i < nodes.length →
      walkUp ((List.range' 1 (nodes.length - 1)).map fun i =>
          (i, ((encrypt_with_key (nodes.getD i [])
              (nodes.getD ((i - 1) / 2) []) (rng i)).2,
            (encrypt_with_key (nodes.getD i [])
              (nodes.getD ((i - 1) / 2) []) (rng i)).1)))
        i (nodes.getD i []) = Except.ok (nodes.getD 0 []) := by
  intro i
  induction i using Nat.strong_induction_on with
  | _ i ihs =>
    cases i with
    | zero => intro _; simp [walkUp]
    | succ j =>
      intro hj
      have hlook := range_map_lookup
        (fun i => ((encrypt_with_key (nodes.getD i [])
            (nodes.getD ((i - 1) / 2) []) (rng i)).2,
          (encrypt_with_key (nodes.getD i [])
            (nodes.getD ((i - 1) / 2) []) (rng i)).1))
        (nodes.length - 1) 1 (j + 1) (by omega) (by omega)
      rw [walkUp]
      rw [hlook]
      simp only [encrypt_with_key, decrypt_with_key]
      rw [if_pos ⟨trivial, trivial⟩]
      have harg : (j + 1 - 1) / 2 = j / 2 := by omega
      rw [harg]
      exact ihs (j / 2) (by omega) (by omega)

/-- C2: the claimed HKS round trip fails in the code.  `export` signs the
serde_json bytes rendered with the exporter's `HashMap` iteration orders,
while `import` verifies the signature over an independent re-serialization
of the freshly parsed maps; whenever the importer's rendering differs from
the signed one — the near-certain case, since the std `HashMap` order is
randomized per instance and `tree_links` holds 8190 entries — `import`
fails with `Invalid signature` (first two conjuncts evaluate the code on
that failure).  When the two renderings happen to coincide, the rest of
the pipeline is correct and the round trip returns the payload exactly as
the claim describes (third conjunct), isolating the slip to the
non-canonical serialization; the spec prescribes canonical JSON. -/
theorem hks_serialization_breaks_roundtrip :
    (∀ (blob : PublishedBlob) (my_pub my_sk vk : Nat)
        (iL : List (Nat × (Nat × Ciphertext Bytes)) →
          List (Nat × (Nat × Ciphertext Bytes)))
        (iR : List (Nat × FriendEntry) → List (Nat × FriendEntry))
        (sig : Ed25519Sig),
      blob.signature = some sig →
      sig ≠ (vk, serializeBlob blob.core iL iR) →
      importBlob blob my_pub my_sk vk iL iR =
        Except.error "Invalid signature") ∧
    (∀ (nodes : List Bytes) (roster0 : List (Nat × FriendEntry))
        (idx : Nat) (name : String) (skF skMe signSk : Nat)
        (payload : Bytes) (nonceA : Nat) (rng : Nat → Nat)
        (eL iL : List (Nat × (Nat × Ciphertext Bytes)) →
          List (Nat × (Nat × Ciphertext Bytes)))
        (eR iR : List (Nat × FriendEntry) → List (Nat × FriendEntry)),
      nodes.length = MAX_NODES → idx < MAX_FRIENDS →
      ∃ t' : HksTree,
        HksTree.add_friend ⟨nodes, roster0, idx⟩ name (x25519Pub skF) skMe
          nonceA = Except.ok t' ∧
        (serializeBlob (t'.exportBlob payload signSk (x25519Pub skMe) rng
            eL eR).core iL iR ≠
          serializeBlob (t'.exportBlob payload signSk (x25519Pub skMe) rng
            eL eR).core eL eR →
          importBlob (t'.exportBlob payload signSk (x25519Pub skMe) rng
            eL eR) (x25519Pub skF) skF signSk iL iR =
            Except.error "Invalid signature") ∧
        (serializeBlob (t'.exportBlob payload signSk (x25519Pub skMe) rng
            eL eR).core iL iR =
          serializeBlob (t'.exportBlob payload signSk (x25519Pub skMe) rng
            eL eR).core eL eR →
          importBlob (t'.exportBlob payload signSk (x25519Pub skMe) rng
            eL eR) (x25519Pub skF) skF signSk iL iR =
            Except.ok payload)) := by
  have habort : ∀ (blob : PublishedBlob) (my_pub my_sk vk : Nat)
      (iL : List (Nat × (Nat × Ciphertext Bytes)) →
        List (Nat × (Nat × Ciphertext Bytes)))
      (iR : List (Nat × FriendEntry) → List (Nat × FriendEntry))
      (sig : Ed25519Sig),
      blob.signature = some sig →
      sig ≠ (vk, serializeBlob blob.core iL iR) →
      importBlob blob my_pub my_sk vk iL iR =
        Except.error "Invalid signature" := by
    intro blob my_pub my_sk vk iL iR sig hsig hne
    simp only [importBlob, hsig]
    rw [if_neg (by simp [ed25519Verify, hne])]
  refine ⟨habort, ?_⟩
  intro nodes roster0 idx name skF skMe signSk payload nonceA rng eL iL eR
    iR hlen hidx
  have hmax : MAX_NODES = 8191 := by decide
  have hmaxf : MAX_FRIENDS = 15000 := by decide
  have hleafstart : LEAF_START_IDX = 4095 := by decide
  have hleaf : LEAF_START_IDX + idx / 4 < nodes.length := by
    rw [hlen, hmax, hleafstart]
    omega
  have hadd : HksTree.add_friend ⟨nodes, roster0, idx⟩ name (x25519Pub skF)
      skMe nonceA = Except.ok
      ⟨nodes,
        (x25519Pub skF,
          ⟨name, x25519Pub skF,
            ⟨diffie_hellman skMe (x25519Pub skF), nonceA,
              nodes.getD (LEAF_START_IDX + idx / 4) []⟩,
            nonceA, LEAF_START_IDX + idx / 4⟩) :: roster0,
        idx + 1⟩ := by
    simp only [HksTree.add_friend]
    rw [if_neg (by omega), if_neg (by omega)]
    rfl
  refine ⟨_, hadd, ?_, ?_⟩
  · intro hne
    exact habort _ (x25519Pub skF) skF signSk iL iR
      (signSk, serializeBlob
        ((HksTree.exportBlob _ payload signSk (x25519Pub skMe) rng eL
          eR).core) eL eR)
      rfl
      (fun hcon => hne (congrArg Prod.snd hcon).symm)
  · intro heq
    simp only [HksTree.exportBlob, importBlob, ed25519Sign, ed25519Verify,
      decide_eq_true_eq] at heq ⊢
    rw [if_pos (congrArg (fun s => ((signSk : Nat), s)) heq.symm)]
    simp only [List.lookup_cons, beq_self_eq_true]
    rw [dh_comm skF skMe]
    simp only [encrypt_with_key, decrypt_with_key]
    rw [if_pos ⟨trivial, trivial⟩]
    have hwalk := walkUp_to_root nodes rng (LEAF_START_IDX + idx / 4)
      (by omega)
    simp only [encrypt_with_key] at hwalk
    dsimp only
    rw [hwalk]
    dsimp only
    rw [if_pos ⟨rfl, trivial⟩]

/-- C2 witness: a concrete blob whose stored signature was computed over a
serialization listing a `tree_links` entry that the verifier's own
re-serialization does not list in the same way; import rejects it with
`Invalid signature`. -/
theorem hks_serialization_breaks_roundtrip_witness :
    importBlob
      ⟨⟨⟨[1], 0, [2]⟩, 0, [], [], 5, []⟩,
        some (3, ⟨⟨[1], 0, [2]⟩, 0, [(1, (0, ⟨[], 0, []⟩))], [], 5, []⟩)⟩
      0 0 3 (fun x => x) (fun x => x) =
      Except.error "Invalid signature" :=
  hks_serialization_breaks_roundtrip.1
    ⟨⟨⟨[1], 0, [2]⟩, 0, [], [], 5, []⟩,
      some (3, ⟨⟨[1], 0, [2]⟩, 0, [(1, (0, ⟨[], 0, []⟩))], [], 5, []⟩)⟩
    0 0 3 (fun x => x) (fun x => x)
    (3, ⟨⟨[1], 0, [2]⟩, 0, [(1, (0, ⟨[], 0, []⟩))], [], 5, []⟩)
    rfl (by decide)

/-- C8 counterexample: a well-formed Binding response that carries a
MAPPED-ADDRESS attribute (1.2.3.4:8080) before a well-formed
XOR-MAPPED-ADDRESS attribute (decoding to 33.18.164.66:8466).  The parser
returns the MAPPED-ADDRESS value, not the address decoded from the
XOR-MAPPED-ADDRESS attribute, refuting order-independent precedence. -/
theorem stun_mapped_attribute_first_wins :
    parseStun [1, 1, 0, 24, 33, 18, 164, 66, 0, 0, 0, 0, 0, 0, 0, 0, 0, 0,
        0, 0,
        0, 1, 0, 8, 0, 1, 31, 144, 1, 2, 3, 4,
        0, 32, 0, 8, 0, 1, 0, 0, 0, 0, 0, 0] =
      some (Except.ok ⟨IpAddr.v4 16909060, 8080⟩) ∧
    (⟨IpAddr.v4 16909060, 8080⟩ : SockAddr) ≠
      ⟨IpAddr.v4 554869826, 8466⟩ := by
  constructor
  · rfl
  · decide

/-- C8 (amended): the attribute loop honours whichever well-formed address
attribute appears first in TLV order — at an XOR-MAPPED-ADDRESS it returns
the XOR-decoded address, at a MAPPED-ADDRESS the plainly decoded address
(IPv4 cases shown), and any other attribute type is skipped, the scan
continuing at the 4-byte-aligned next offset.  In particular, when a
well-formed XOR-MAPPED-ADDRESS precedes every MAPPED-ADDRESS, its decoded
address is the result. -/
theorem parseAttrs_first_address_match (buf : Bytes)
    (len msg_len fuel offset : Nat)
    (hguard : offset + 4 ≤ 20 + msg_len ∧ offset + 4 ≤ len)
    (hfit : ¬ offset + 4 + be16At buf (offset + 2) > len) :
    (be16At buf offset ≠ ATTR_XOR_MAPPED_ADDRESS →
      be16At buf offset ≠ ATTR_MAPPED_ADDRESS →
      parseAttrs buf len msg_len (fuel + 1) offset =
        parseAttrs buf len msg_len fuel
          (offset + 4 + (be16At buf (offset + 2) + 3) / 4 * 4)) ∧
    (be16At buf offset = ATTR_XOR_MAPPED_ADDRESS →
      ((buf.drop (offset + 4)).take (be16At buf (offset + 2))).getD 1 0 =
        1 →
      be16At buf (offset + 2) ≥ 8 →
      parseAttrs buf len msg_len (fuel + 1) offset =
        some (Except.ok
          ⟨IpAddr.v4 (be32At
              ((buf.drop (offset + 4)).take (be16At buf (offset + 2))) 4 ^^^
              STUN_MAGIC_COOKIE),
            be16At ((buf.drop (offset + 4)).take (be16At buf (offset + 2)))
              2 ^^^ (STUN_MAGIC_COOKIE >>> 16)⟩)) ∧
    (be16At buf offset = ATTR_MAPPED_ADDRESS →
      ((buf.drop (offset + 4)).take (be16At buf (offset + 2))).getD 1 0 =
        1 →
      be16At buf (offset + 2) ≥ 8 →
      parseAttrs buf len msg_len (fuel + 1) offset =
        some (Except.ok
          ⟨IpAddr.v4 (be32At
              ((buf.drop (offset + 4)).take (be16At buf (offset + 2))) 4),
            be16At ((buf.drop (offset + 4)).take (be16At buf (offset + 2)))
              2⟩)) := by
  refine ⟨?_, ?_, ?_⟩
  · intro h1 h2
    rw [parseAttrs, if_pos hguard, if_neg hfit, if_neg h1, if_neg h2]
  · intro h1 hfam hlen8
    rw [parseAttrs, if_pos hguard, if_neg hfit, if_pos h1,
      if_neg (by omega), if_pos ⟨hfam, hlen8⟩]
  · intro h1 hfam hlen8
    have hne : be16At buf offset ≠ ATTR_XOR_MAPPED_ADDRESS := by
      rw [h1]
      decide
    rw [parseAttrs, if_pos hguard, if_neg hfit, if_neg hne, if_pos h1,
      if_neg (by omega), if_pos ⟨hfam, hlen8⟩]

/-- C8 (amended) witness: on a response whose first attribute is a
well-formed XOR-MAPPED-ADDRESS, the loop returns its XOR-decoded
address. -/
theorem parseAttrs_first_address_match_witness :
    parseAttrs [1, 1, 0, 24, 33, 18, 164, 66, 0, 0, 0, 0, 0, 0, 0, 0, 0, 0,
        0, 0,
        0, 32, 0, 8, 0, 1, 0, 0, 0, 0, 0, 0,
        0, 1, 0, 8, 0, 1, 31, 144, 1, 2, 3, 4] 44 24 24 20 =
      some (Except.ok
        ⟨IpAddr.v4 (be32At
            (([1, 1, 0, 24, 33, 18, 164, 66, 0, 0, 0, 0, 0, 0, 0, 0, 0, 0,
              0, 0,
              0, 32, 0, 8, 0, 1, 0, 0, 0, 0, 0, 0,
              0, 1, 0, 8, 0, 1, 31, 144, 1, 2, 3, 4].drop (20 + 4)).take
              (be16At [1, 1, 0, 24, 33, 18, 164, 66, 0, 0, 0, 0, 0, 0, 0, 0,
                0, 0, 0, 0,
                0, 32, 0, 8, 0, 1, 0, 0, 0, 0, 0, 0,
                0, 1, 0, 8, 0, 1, 31, 144, 1, 2, 3, 4] (20 + 2))) 4 ^^^
            STUN_MAGIC_COOKIE),
          be16At (([1, 1, 0, 24, 33, 18, 164, 66, 0, 0, 0, 0, 0, 0, 0, 0, 0,
              0, 0, 0,
              0, 32, 0, 8, 0, 1, 0, 0, 0, 0, 0, 0,
              0, 1, 0, 8, 0, 1, 31, 144, 1, 2, 3, 4].drop (20 + 4)).take
              (be16At [1, 1, 0, 24, 33, 18, 164, 66, 0, 0, 0, 0, 0, 0, 0, 0,
                0, 0, 0, 0,
                0, 32, 0, 8, 0, 1, 0, 0, 0, 0, 0, 0,
                0, 1, 0, 8, 0, 1, 31, 144, 1, 2, 3, 4] (20 + 2))) 2 ^^^
            (STUN_MAGIC_COOKIE >>> 16)⟩) :=
  (parseAttrs_first_address_match
    [1, 1, 0, 24, 33, 18, 164, 66, 0, 0, 0, 0, 0, 0, 0, 0, 0, 0, 0, 0,
      0, 32, 0, 8, 0, 1, 0, 0, 0, 0, 0, 0,
      0, 1, 0, 8, 0, 1, 31, 144, 1, 2, 3, 4] 44 24 23 20
    (by decide) (by decide)).2.1 (by decide) (by decide) (by decide)

/-- C9 witness: instantiation at a one-row table whose `peer_id` is hit. -/
theorem add_peer_upsert_frame_witness :
    List.Forall₂ (fun r r' : PeerRow =>
      (r.id = "p1" →
        r'.aliasName = (some "Ann").getD "p1" ∧ r'.last_seen = 9 ∧
        r'.id = r.id ∧ r'.public_key = r.public_key ∧
        r'.method = r.method) ∧
      (r.id ≠ "p1" → r' = r))
      [⟨"p1", "old", 1, [7], "gist"⟩]
      (add_peer [⟨"p1", "old", 1, [7], "gist"⟩] "p1" (some "Ann") none
        "local" 9) :=
  add_peer_upsert_frame [⟨"p1", "old", 1, [7], "gist"⟩] "p1" (some "Ann")
    none "local" 9 ⟨⟨"p1", "old", 1, [7], "gist"⟩, by simp, rfl⟩

end RChat
